import Mathlib

/-!
Verification of the Inventory Ledger & Serial Allocation Engine.

This file gives a shallow embedding, in Lean 4, of the core logic of the
inventory application (`src/App.tsx`, the item-detail modal, the add-item
modal): the stock derivation fold, the serial-range expander and its
regular-expression match, the next-serial suggestion, the transaction
submission handler, the password-gated mutation handlers, and the
persist/debounce layer, together with theorems settling the frozen claims.

Numbers are modelled as `Int`/`Nat` (the quantities flowing through the
code come from `parseInt` and small arithmetic, far below any floating
point precision boundary), strings as Lean `String`, and JavaScript string
operations (`toUpperCase`, `trim`, `padStart`, `parseInt`,
`Number.toString`) as the executable functions below, faithful on the
ASCII alphabet the application works with.
-/

namespace Inventory

/-- ASCII model of JavaScript `String.prototype.toUpperCase` on a single
character: the 26 lowercase letters map to uppercase, everything else is
unchanged. -/
def upChar : Char → Char
  | 'a' => 'A' | 'b' => 'B' | 'c' => 'C' | 'd' => 'D' | 'e' => 'E'
  | 'f' => 'F' | 'g' => 'G' | 'h' => 'H' | 'i' => 'I' | 'j' => 'J'
  | 'k' => 'K' | 'l' => 'L' | 'm' => 'M' | 'n' => 'N' | 'o' => 'O'
  | 'p' => 'P' | 'q' => 'Q' | 'r' => 'R' | 's' => 'S' | 't' => 'T'
  | 'u' => 'U' | 'v' => 'V' | 'w' => 'W' | 'x' => 'X' | 'y' => 'Y'
  | 'z' => 'Z'
  | c => c

/-- JS `s.toUpperCase()`. -/
def jsToUpper (s : String) : String := String.mk (s.data.map upChar)

/-- The whitespace class used by both JS `trim` and the regex `\s`
(ASCII part). -/
def isSpaceJS (c : Char) : Bool :=
  c == ' ' || c == '\t' || c == '\n' || c == '\r' || c == '\x0b' || c == '\x0c'

/-- JS `s.trim()`: strip leading and trailing whitespace. -/
def jsTrim (s : String) : String :=
  String.mk (((s.data.dropWhile isSpaceJS).reverse.dropWhile isSpaceJS).reverse)

/-- Numeric value of a decimal digit character. -/
def digitVal (c : Char) : Nat := c.toNat - 48

/-- Value of a decimal digit string (most significant first). -/
def digitsToNat (l : List Char) : Nat := l.foldl (fun a c => 10 * a + digitVal c) 0

/-- JS `parseInt(s, 10)`: skip leading whitespace, optional sign, then the
maximal run of decimal digits; `none` models `NaN` (no digits found). -/
def jsParseInt (s : String) : Option Int :=
  let cs := s.data.dropWhile isSpaceJS
  let signed : Int × List Char :=
    match cs with
    | '+' :: r => (1, r)
    | '-' :: r => (-1, r)
    | r => (1, r)
  let ds := signed.2.takeWhile Char.isDigit
  if ds.isEmpty then none else some (signed.1 * (digitsToNat ds : Int))

/-- JS `parseInt(s, 10) || 0` (the `NaN`-to-zero idiom used by the code). -/
def parseIntOr0 (s : String) : Int := (jsParseInt s).getD 0

/-- Decimal digit character for a value below ten. -/
def digitChar (d : Nat) : Char :=
  match d with
  | 0 => '0' | 1 => '1' | 2 => '2' | 3 => '3' | 4 => '4'
  | 5 => '5' | 6 => '6' | 7 => '7' | 8 => '8' | _ => '9'

/-- Fuelled worker for the decimal rendering (structural recursion, so
that the kernel can evaluate it; the fuel is irrelevant once it exceeds
the value, cf. `natToDigitsAux_fuel`). -/
def natToDigitsAux : Nat → Nat → List Char
  | 0, _ => []
  | fuel + 1, n =>
    if n < 10 then [digitChar n]
    else natToDigitsAux fuel (n / 10) ++ [digitChar (n % 10)]

/-- Decimal digit list of a natural number (JS `n.toString()` for
non-negative integers). -/
def natToDigits (n : Nat) : List Char := natToDigitsAux (n + 1) n

/-- JS `n.toString()` for a non-negative number. -/
def natToDecimal (n : Nat) : String := String.mk (natToDigits n)

/-- JS `s.padStart(len, '0')`. -/
def padZeros (s : String) (len : Nat) : String :=
  String.mk (List.replicate (len - s.data.length) '0' ++ s.data)

end Inventory

namespace Inventory

/-! Basic lemmas about the primitives. -/

theorem upChar_cases (c : Char) :
    upChar c = c ∨ upChar c ∈ ['A', 'B', 'C', 'D', 'E', 'F', 'G', 'H', 'I', 'J', 'K', 'L',
      'M', 'N', 'O', 'P', 'Q', 'R', 'S', 'T', 'U', 'V', 'W', 'X', 'Y', 'Z'] := by
  unfold upChar
  split <;> simp

theorem upChar_upChar (c : Char) : upChar (upChar c) = upChar c := by
  rcases upChar_cases c with h | h
  · simp only [h]
  · simp only [List.mem_cons, List.not_mem_nil, or_false] at h
    rcases h with h|h|h|h|h|h|h|h|h|h|h|h|h|h|h|h|h|h|h|h|h|h|h|h|h|h <;> rw [h] <;> rfl

theorem digitVal_digitChar {d : Nat} (h : d < 10) : digitVal (digitChar d) = d := by
  interval_cases d <;> rfl

theorem isDigit_digitChar {d : Nat} (h : d < 10) : (digitChar d).isDigit = true := by
  interval_cases d <;> rfl

theorem digitsToNat_append (l : List Char) (c : Char) :
    digitsToNat (l ++ [c]) = 10 * digitsToNat l + digitVal c := by
  simp [digitsToNat, List.foldl_append]

theorem natToDigitsAux_fuel :
    ∀ f₁ f₂ n, n < f₁ → n < f₂ → natToDigitsAux f₁ n = natToDigitsAux f₂ n := by
  intro f₁
  induction f₁ with
  | zero => omega
  | succ g₁ ih =>
    intro f₂ n h₁ h₂
    match f₂, h₂ with
    | g₂ + 1, _ =>
      show natToDigitsAux (g₁ + 1) n = natToDigitsAux (g₂ + 1) n
      simp only [natToDigitsAux]
      split
      · rfl
      · next h =>
        rw [ih g₂ (n / 10) (by omega) (by omega)]

/-- The defining recurrence of the decimal rendering. -/
theorem natToDigits_eq (n : Nat) :
    natToDigits n = if n < 10 then [digitChar n]
      else natToDigits (n / 10) ++ [digitChar (n % 10)] := by
  show natToDigitsAux (n + 1) n = _
  simp only [natToDigitsAux]
  split
  · rfl
  · next h =>
    rw [natToDigitsAux_fuel n (n / 10 + 1) (n / 10) (by omega) (by omega)]
    rfl

theorem digitsToNat_natToDigits (n : Nat) : digitsToNat (natToDigits n) = n := by
  induction n using Nat.strong_induction_on with
  | _ n ih =>
    rw [natToDigits_eq]
    split
    · next h =>
      simp [digitsToNat, digitVal_digitChar h]
    · next h =>
      rw [digitsToNat_append, ih (n / 10) (Nat.div_lt_self (by omega) (by omega)),
        digitVal_digitChar (Nat.mod_lt _ (by omega))]
      omega

theorem natToDigits_ne_nil (n : Nat) : natToDigits n ≠ [] := by
  rw [natToDigits_eq]
  split <;> simp

theorem natToDigits_all_digit (n : Nat) : (natToDigits n).all Char.isDigit = true := by
  induction n using Nat.strong_induction_on with
  | _ n ih =>
    rw [natToDigits_eq]
    split
    · next h => simp [isDigit_digitChar h]
    · next h =>
      simp only [List.all_append]
      rw [ih (n / 10) (Nat.div_lt_self (by omega) (by omega))]
      simp [isDigit_digitChar (Nat.mod_lt n (by omega))]

theorem digitsToNat_cons_zero (l : List Char) : digitsToNat ('0' :: l) = digitsToNat l := rfl

theorem digitsToNat_replicate_zero_append (k : Nat) (l : List Char) :
    digitsToNat (List.replicate k '0' ++ l) = digitsToNat l := by
  induction k with
  | zero => rfl
  | succ k ih => rw [List.replicate_succ, List.cons_append, digitsToNat_cons_zero, ih]

/-- The round trip that makes the generated serial numerals meaningful:
reading back a zero-padded decimal rendering gives the number itself. -/
theorem digitsToNat_padZeros (n len : Nat) :
    digitsToNat (padZeros (natToDecimal n) len).data = n := by
  simp only [padZeros, natToDecimal]
  rw [digitsToNat_replicate_zero_append, digitsToNat_natToDigits]

/-! ## The serial-range regular expression

`parseSerialRange` matches its input against
`/^(.+?)(\d+)\s*~\s*(.+?)?(\d+)$/` and reads captures 1 (left text), 2
(start digits) and 4 (end digits); capture 3 — whatever stands between the
`~` and the end digits — is never read.  The functions below are a direct
model of the ECMAScript backtracking search for this one pattern: lazy
`.+?` tries the shortest run first, greedy `\d+`/`\s*` try the longest
first, the optional group `(.+?)?` tries to participate before being
skipped, and `.` matches anything except a line terminator. -/

/-- `.` of the pattern: any character except a line terminator. -/
def dotChar (c : Char) : Bool :=
  !(c == '\n' || c == '\r' || c == '\u2028' || c == '\u2029')

/-- `(.+?)?(\d+)$` with the optional group participating: the lazy `.+?`
takes the shortest non-empty run after which the whole remainder is
digits; returns capture 4. -/
def matchTail : List Char → Option (List Char)
  | [] => none
  | c :: rest =>
    if dotChar c then
      if !rest.isEmpty && rest.all Char.isDigit then some rest else matchTail rest
    else none

/-- `(.+?)?(\d+)$`: the greedy `?` first lets the group participate, and
only if that fails matches the whole remainder as `(\d+)$`. -/
def matchEnd (r : List Char) : Option (List Char) :=
  match matchTail r with
  | some g4 => some g4
  | none => if !r.isEmpty && r.all Char.isDigit then some r else none

/-- Greedy `\s*` with backtracking before `(.+?)?(\d+)$`: try consuming
`w` whitespace characters, longest first. -/
def tryWsAux (r : List Char) : Nat → Option (List Char)
  | 0 => matchEnd r
  | w + 1 =>
    match matchEnd (r.drop (w + 1)) with
    | some g4 => some g4
    | none => tryWsAux r w

/-- `\s*(.+?)?(\d+)$` (everything after the literal `~`). -/
def matchAfterTilde (r : List Char) : Option (List Char) :=
  tryWsAux r (r.takeWhile isSpaceJS).length

/-- One attempt of `(\d+)\s*~\s*(.+?)?(\d+)$` at the current position:
capture 2 is the maximal digit run (a shorter one would leave a digit
where `\s*~` must match, so no backtracking can succeed), then whitespace,
the literal `~`, and the tail pattern.  Returns captures 2 and 4. -/
def matchAt (rest : List Char) : Option (List Char × List Char) :=
  let ds := rest.takeWhile Char.isDigit
  if ds.isEmpty then none
  else
    let after := rest.drop ds.length
    match after.drop (after.takeWhile isSpaceJS).length with
    | '~' :: r2 => (matchAfterTilde r2).map (fun g4 => (ds, g4))
    | _ => none

/-- The lazy `(.+?)` head: grow capture 1 one character at a time (each a
`dotChar`), attempting the rest of the pattern at every stop.  `g1` holds
the reversed capture so far. -/
def matchRangeAux : List Char → List Char → Option (List Char × List Char × List Char)
  | g1, [] =>
    match matchAt [] with
    | some (ds, g4) => some (g1.reverse, ds, g4)
    | none => none
  | g1, c :: rest2 =>
    match matchAt (c :: rest2) with
    | some (ds, g4) => some (g1.reverse, ds, g4)
    | none => if dotChar c then matchRangeAux (c :: g1) rest2 else none

/-- `input.match(/^(.+?)(\d+)\s*~\s*(.+?)?(\d+)$/)`, reduced to the three
captures the code reads: `(capture 1, capture 2, capture 4)`. -/
def matchRange : List Char → Option (List Char × List Char × List Char)
  | [] => none
  | c :: rest => if dotChar c then matchRangeAux [c] rest else none

/-- The error thrown by `parseSerialRange` when a range spans more than
100 serials (the alert text is irrelevant to the logic). -/
inductive RangeError
  | rangeTooLarge
deriving DecidableEq, Repr

/-- `parseSerialRange` from the item-detail modal: expand a serial-range
input into the list of serials it denotes, or fall back to the trimmed
literal input, or throw when the inclusive range exceeds 100 entries.
Capture 2's digit width is the pad length of every generated value. -/
def parseSerialRange (input : String) : Except RangeError (List String) :=
  match matchRange input.data with
  | none => .ok [jsTrim input]
  | some (pfx, startNumStr, endNumStr) =>
    match jsParseInt (String.mk startNumStr), jsParseInt (String.mk endNumStr) with
    | some startNum, some endNum =>
      if startNum > endNum then .ok [jsTrim input]
      else if endNum - startNum ≥ 100 then .error .rangeTooLarge
      else .ok ((List.range ((endNum - startNum).toNat + 1)).map
          (fun j => String.mk pfx ++ padZeros (natToDecimal (startNum.toNat + j)) startNumStr.length))
    | _, _ => .ok [jsTrim input]

/-! ## Next-serial suggestion -/

/-- `[a-zA-Z]`. -/
def isLetter (c : Char) : Bool := ('a' ≤ c && c ≤ 'z') || ('A' ≤ c && c ≤ 'Z')

/-- `s.match(/^([a-zA-Z]+)(\d+)$/)`: the whole string is a non-empty
letter run followed by a non-empty digit run; returns both captures. -/
def serialMatch (s : String) : Option (String × List Char) :=
  let letters := s.data.takeWhile isLetter
  let rest := s.data.drop letters.length
  if !letters.isEmpty && !rest.isEmpty && rest.all Char.isDigit then
    some (String.mk letters, rest)
  else none

/-- The body of `suggestNextSerial`'s `forEach` over the used serials:
on a match, raise the running maximum (`maxNum`) if the numeric capture
beats it, and overwrite the remembered prefix (`currentPrefix`)
unconditionally; on a non-match, leave both (`parseInt` on the all-digits
capture is `digitsToNat`, cf. `jsParseInt_digits`). -/
def suggestStep (acc : Nat × String) (s : String) : Nat × String :=
  match serialMatch s with
  | some (pfx, ds) =>
    let num := digitsToNat ds
    (if num > acc.1 then num else acc.1, pfx)
  | none => acc

/-- `suggestNextSerial` from the item-detail modal. -/
def suggestNextSerial (usedSerials : List String) : String :=
  if usedSerials.isEmpty then "SN00001"
  else
    let st := usedSerials.foldl suggestStep (0, "SN")
    let nextNum := st.1 + 1
    let padLength := max 5 (natToDecimal nextNum).length
    st.2 ++ padZeros (natToDecimal nextNum) padLength

/-! ## Data model

`Item` and `Transaction` as in `types.ts` / the component props.  Optional
string fields are modelled as `String` with `""` for `undefined`: the code
only ever tests them for truthiness or renders them, and the empty string
and `undefined` are equally falsy in every such use. -/

/-- `'purchase' | 'release'` (Inbound / Outbound). -/
inductive TxType
  | purchase
  | release
deriving DecidableEq, Repr

/-- `'part' | 'product'`. -/
inductive ItemType
  | part
  | product
deriving DecidableEq, Repr

/-- `Omit<Transaction, 'id'>` — what the item-detail modal hands to
`onAddTransaction`. -/
structure TransactionData where
  ttype : TxType
  quantity : Int
  date : String
  remarks : String := ""
  modelName : String := ""
  userId : String := ""
  serialNumber : String := ""
  customerName : String := ""
  address : String := ""
  phoneNumber : String := ""
deriving DecidableEq, Repr

/-- A persisted transaction: the data plus the id `handleAddTransaction`
assigns. -/
structure Transaction extends TransactionData where
  id : String
deriving DecidableEq, Repr

/-- An inventory item with its owned transaction history. -/
structure Item where
  id : String
  itype : ItemType
  code : String
  name : String
  modelName : String := ""
  application : String := ""
  drawingNumber : String := ""
  spec : String := ""
  remarks : String := ""
  registrationDate : String := ""
  transactions : List Transaction
deriving DecidableEq, Repr

/-- `calculateStock` (`App.tsx`) and the modal's `currentStock` memo: fold
the transaction sequence, `purchase` adds the quantity, anything else
subtracts it. -/
def calculateStock (item : Item) : Int :=
  item.transactions.foldl
    (fun acc t => if t.ttype = .purchase then acc + t.quantity else acc - t.quantity) 0

/-- The serials a transaction list contributes to the registry: every
truthy `serialNumber`, uppercased. -/
def txnSerials (ts : List Transaction) : List String :=
  ts.filterMap (fun t =>
    if t.serialNumber ≠ "" then some (jsToUpper t.serialNumber) else none)

/-- One item's contribution to the registry. -/
def itemSerials (item : Item) : List String := txnSerials item.transactions

/-- The serials pushed by the `allUsedSerials` memo before deduplication:
every truthy `serialNumber`, uppercased, over all transactions of all
items. -/
def collectSerials (items : List Item) : List String := items.flatMap itemSerials

/-- `allUsedSerials` (`App.tsx`): the global serial registry,
deduplicated (`Array.from(new Set(...))`). -/
def allUsedSerials (items : List Item) : List String := (collectSerials items).dedup

/-! ## Transaction submission (the modal's `handleAddTransaction`) -/

/-- The form state feeding a submission: the transaction-type toggle and
the raw text inputs. -/
structure SubmitForm where
  transactionType : TxType
  quantity : String
  transRemarks : String := ""
  transModelName : String := ""
  transUserId : String := ""
  serialNumber : String := ""
  customerName : String := ""
  address : String := ""
  phoneNumber : String := ""
deriving DecidableEq, Repr

/-- The rejection alerts of `handleAddTransaction`, in the order the code
checks them. -/
inductive SubmitError
  | rangeTooLarge
  | duplicateSerials (reported : List String)
  | invalidQuantity
  | insufficientStock
deriving DecidableEq, Repr

/-- The first block of `handleAddTransaction`: compute `targetSerials` and
`isRange`.  A product whose serial input contains `~` goes through
`parseSerialRange` (whose throw aborts the submission); everything else is
the single trimmed uppercased input. -/
def expandTarget (item : Item) (serialNumber : String) :
    Except RangeError (List String × Bool) :=
  if item.itype = .product ∧ serialNumber.data.contains '~' then
    (parseSerialRange (jsToUpper serialNumber)).map (fun ts => (ts, true))
  else .ok ([jsTrim (jsToUpper serialNumber)], false)

/-- `targetSerials.filter(s => !!s && allUsedSerials.includes(s))`. -/
def duplicatesOf (registry targets : List String) : List String :=
  targets.filter (fun s => !(s == "") && registry.contains s)

/-- The quantity a submission asks for: the number of expanded serials for
a range, or `parseInt(quantity, 10) || 0` otherwise. -/
def submitCount (f : SubmitForm) (targets : List String) (isRange : Bool) : Int :=
  if isRange then (targets.length : Int) else parseIntOr0 f.quantity

/-- The transaction recorded for one member of an expanded range:
quantity 1, the member as serial. -/
def rangeTxn (f : SubmitForm) (now : String) (s : String) : TransactionData :=
  { ttype := f.transactionType, quantity := 1, date := now,
    remarks := f.transRemarks, modelName := f.transModelName, userId := f.transUserId,
    serialNumber := s, customerName := f.customerName, address := f.address,
    phoneNumber := f.phoneNumber }

/-- The single transaction recorded for a non-range submission: the parsed
quantity; serial and customer fields only for products. -/
def singleTxn (item : Item) (f : SubmitForm) (now : String) (count : Int) : TransactionData :=
  { ttype := f.transactionType, quantity := count, date := now,
    remarks := f.transRemarks, modelName := f.transModelName, userId := f.transUserId,
    serialNumber := if item.itype = .product then jsToUpper f.serialNumber else "",
    customerName := if item.itype = .product then f.customerName else "",
    address := if item.itype = .product then f.address else "",
    phoneNumber := if item.itype = .product then f.phoneNumber else "" }

/-- `handleAddTransaction` of the item-detail modal, as a pure function
from the item, the global registry and the form to either a rejection or
the list of transactions handed to `onAddTransaction` (in call order).
`item` is the item the modal is open on; `registry` is the
`allUsedSerials` prop; `now` stands for `new Date().toISOString()`. -/
def submitTransaction (item : Item) (registry : List String) (f : SubmitForm)
    (now : String) : Except SubmitError (List TransactionData) :=
  match expandTarget item f.serialNumber with
  | .error _ => .error .rangeTooLarge
  | .ok (targets, isRange) =>
    let dups := duplicatesOf registry targets
    if dups ≠ [] then .error (.duplicateSerials (dups.take 5))
    else
      let count := submitCount f targets isRange
      if count ≤ 0 then .error .invalidQuantity
      else if f.transactionType = .release ∧ count > calculateStock item then
        .error .insufficientStock
      else if isRange then .ok (targets.map (rangeTxn f now))
      else .ok [singleTxn item f now count]

/-- `handleAddTransaction` of `App.tsx`: append one freshly-id'd
transaction to the matching item. -/
def appAddTransaction (items : List Item) (itemId : String) (t : Transaction) : List Item :=
  items.map (fun item =>
    if item.id = itemId then { item with transactions := item.transactions ++ [t] }
    else item)

/-- Attach the generated ids (`generateId('t')`, modelled as an id supply
consumed in call order) to the submitted transaction data. -/
def withIds : List TransactionData → (Nat → String) → List Transaction
  | [], _ => []
  | d :: rest, idf =>
    { toTransactionData := d, id := idf 0 } :: withIds rest (fun i => idf (i + 1))

/-- A whole submission as observed from the app state: on rejection the
collection is untouched, on acceptance each produced transaction is
appended in order via `onAddTransaction`. -/
def submitAndApply (items : List Item) (item : Item) (registry : List String)
    (f : SubmitForm) (now : String) (idf : Nat → String) : List Item :=
  match submitTransaction item registry f now with
  | .error _ => items
  | .ok ds => (withIds ds idf).foldl (fun acc t => appAddTransaction acc item.id t) items

/-! ## Item creation (`handleAddItem` with the add-item modal's submit) -/

/-- `Omit<Item, 'id' | 'transactions'>`. -/
structure ItemData where
  itype : ItemType
  code : String
  name : String
  modelName : String := ""
  application : String := ""
  drawingNumber : String := ""
  spec : String := ""
  remarks : String := ""
  registrationDate : String := ""
deriving DecidableEq, Repr

/-- `handleAddItem` (`App.tsx`): build the new item, seed one `purchase`
transaction with the system remark when the initial quantity is positive,
and prepend it to the collection. -/
def handleAddItem (items : List Item) (itemData : ItemData) (initialQuantity : Int)
    (itemId tId now : String) : List Item :=
  let newItem : Item :=
    { id := itemId, itype := itemData.itype, code := itemData.code, name := itemData.name,
      modelName := itemData.modelName, application := itemData.application,
      drawingNumber := itemData.drawingNumber, spec := itemData.spec,
      remarks := itemData.remarks, registrationDate := itemData.registrationDate,
      transactions :=
        if initialQuantity > 0 then
          [{ ttype := .purchase, quantity := initialQuantity, date := now,
             remarks := "초기 수량 등록", id := tId }]
        else [] }
  newItem :: items

/-! ## Field edits and deletions -/

/-- `Partial<Transaction>` as merged by `handleUpdateTransaction`. -/
structure TransactionPatch where
  ttype : Option TxType := none
  quantity : Option Int := none
  date : Option String := none
  remarks : Option String := none
  modelName : Option String := none
  userId : Option String := none
  serialNumber : Option String := none
  customerName : Option String := none
  address : Option String := none
  phoneNumber : Option String := none
deriving DecidableEq, Repr

/-- `{ ...t, ...updatedData }`. -/
def applyPatch (t : Transaction) (p : TransactionPatch) : Transaction :=
  { ttype := p.ttype.getD t.ttype, quantity := p.quantity.getD t.quantity,
    date := p.date.getD t.date, remarks := p.remarks.getD t.remarks,
    modelName := p.modelName.getD t.modelName, userId := p.userId.getD t.userId,
    serialNumber := p.serialNumber.getD t.serialNumber,
    customerName := p.customerName.getD t.customerName,
    address := p.address.getD t.address, phoneNumber := p.phoneNumber.getD t.phoneNumber,
    id := t.id }

/-- `handleUpdateTransaction` (`App.tsx`): merge the patch into the
matching transaction of the matching item, no validation of any kind. -/
def handleUpdateTransaction (items : List Item) (itemId transactionId : String)
    (p : TransactionPatch) : List Item :=
  items.map (fun item =>
    if item.id = itemId then
      { item with transactions :=
          item.transactions.map (fun t => if t.id = transactionId then applyPatch t p else t) }
    else item)

/-- `handleDeleteTransaction` (`App.tsx`). -/
def handleDeleteTransaction (items : List Item) (itemId transactionId : String) :
    List Item :=
  items.map (fun item =>
    if item.id = itemId then
      { item with transactions := item.transactions.filter (fun t => !(t.id == transactionId)) }
    else item)

/-- `Partial<Item>` as merged by `handleUpdateItem` (the fields the edit
form populates). -/
structure ItemPatch where
  code : Option String := none
  name : Option String := none
  modelName : Option String := none
  application : Option String := none
  drawingNumber : Option String := none
  spec : Option String := none
  remarks : Option String := none
  registrationDate : Option String := none
deriving DecidableEq, Repr

/-- `handleUpdateItem` (`App.tsx`): `{ ...item, ...updatedData }`. -/
def handleUpdateItem (items : List Item) (itemId : String) (p : ItemPatch) : List Item :=
  items.map (fun item =>
    if item.id = itemId then
      { item with
        code := p.code.getD item.code
        name := p.name.getD item.name
        modelName := p.modelName.getD item.modelName
        application := p.application.getD item.application
        drawingNumber := p.drawingNumber.getD item.drawingNumber
        spec := p.spec.getD item.spec
        remarks := p.remarks.getD item.remarks
        registrationDate := p.registrationDate.getD item.registrationDate }
    else item)

/-- The editable fields of a transaction row (`name` attributes of the
inline edit inputs). -/
inductive TransField
  | quantity
  | modelName
  | userId
  | serialNumber
  | customerName
  | phoneNumber
  | address
  | remarks
deriving DecidableEq, Repr

/-- `handleTransEditChange`: `quantity` goes through `parseInt || 0`,
`serialNumber` (being in the upper-only list) is uppercased, every other
field is stored verbatim. -/
def handleTransEditChange (d : TransactionPatch) (name : TransField) (value : String) :
    TransactionPatch :=
  match name with
  | .quantity => { d with quantity := some (parseIntOr0 value) }
  | .serialNumber => { d with serialNumber := some (jsToUpper value) }
  | .modelName => { d with modelName := some value }
  | .userId => { d with userId := some value }
  | .customerName => { d with customerName := some value }
  | .phoneNumber => { d with phoneNumber := some value }
  | .address => { d with address := some value }
  | .remarks => { d with remarks := some value }

/-! ## The secret gate -/

def ADMIN_PASSWORD : String := "0000"

def PRODUCT_ONLY_PASSWORD : String := "1111"

/-- The two roles. -/
inductive Role
  | admin
  | product_only
deriving DecidableEq, Repr

/-- The role's required secret. -/
def requiredPass (role : Role) : String :=
  if role = .admin then ADMIN_PASSWORD else PRODUCT_ONLY_PASSWORD

/-- `showPasswordInput`: which gated action is awaiting its secret. -/
inductive PendingAction
  | itemEdit
  | transSave (targetId : String)
  | transDelete (targetId : String)
deriving DecidableEq, Repr

/-- The modal state `handleActionConfirm` reads and writes (the item
collection stands in for the `onUpdate...`/`onDelete...` callbacks, which
write straight into the app's `items`). -/
structure ModalState where
  items : List Item
  itemId : String
  password : String
  showPasswordInput : Option PendingAction
  transEditData : TransactionPatch := {}
  editingTransactionId : Option String := none
  isEditing : Bool := false
  editFormData : ItemPatch := {}
deriving DecidableEq, Repr

/-- `handleActionConfirm`: on a secret mismatch, alert and return (the
state, the entered secret included, is left as it is); on a match, clear
the secret, close the prompt and apply the pending action. -/
def handleActionConfirm (role : Role) (s : ModalState) : ModalState :=
  if s.password ≠ requiredPass role then s
  else
    match s.showPasswordInput with
    | some .itemEdit =>
      { s with
        password := ""
        showPasswordInput := none
        items := handleUpdateItem s.items s.itemId s.editFormData
        isEditing := false }
    | some (.transSave tid) =>
      { s with
        password := ""
        showPasswordInput := none
        items := handleUpdateTransaction s.items s.itemId tid s.transEditData
        editingTransactionId := none }
    | some (.transDelete tid) =>
      { s with
        password := ""
        showPasswordInput := none
        items := handleDeleteTransaction s.items s.itemId tid }
    | none => { s with password := "", showPasswordInput := none }

/-- The app state `handleDeleteItemConfirm` reads and writes. -/
structure AppDeleteState where
  items : List Item
  deletePassword : String
  itemToDelete : Option String
deriving DecidableEq, Repr

/-- `handleDeleteItemConfirm` (`App.tsx`): on a secret mismatch, alert and
return (nothing changes, the entered secret stays); on a match, drop the
item and clear prompt and secret. -/
def handleDeleteItemConfirm (role : Role) (s : AppDeleteState) : AppDeleteState :=
  if s.deletePassword ≠ requiredPass role then s
  else
    match s.itemToDelete with
    | some tid =>
      { items := s.items.filter (fun i => !(i.id == tid)),
        deletePassword := "", itemToDelete := none }
    | none => s

/-! ## Local persistence and the debounced remote push

The `useEffect` on `[items]`: synchronously write the collection to local
storage; then, if the collection is non-empty, start a 2000 ms timer that
pushes the collection to the remote store, the effect cleanup cancelling
whatever timer the previous run had started.  Modelled as a timed machine:
`onItemsChange` is one run of the effect (cleanup plus body) at a given
time, `firePush` is the runtime firing a due timer. -/

def DEBOUNCE_MS : Nat := 2000

/-- The persistence-layer state: the last locally saved snapshot, the
pending timer (deadline and payload), and the log of completed remote
pushes (most recent first). -/
structure SyncState where
  localStore : List Item
  pendingPush : Option (Nat × List Item) := none
  pushed : List (Nat × List Item) := []
deriving DecidableEq, Repr

/-- One run of the persistence effect after `items` changed to `items` at
time `now`: save locally at once; the previous timer is cancelled, and a
new one is scheduled only for a non-empty collection. -/
def onItemsChange (s : SyncState) (now : Nat) (items : List Item) : SyncState :=
  { s with
    localStore := items
    pendingPush := if items.length > 0 then some (now + DEBOUNCE_MS, items) else none }

/-- The runtime at time `now`: a pending timer whose deadline has been
reached fires `saveToServer` with its payload. -/
def firePush (s : SyncState) (now : Nat) : SyncState :=
  match s.pendingPush with
  | some (d, payload) =>
    if d ≤ now then { s with pendingPush := none, pushed := (now, payload) :: s.pushed }
    else s
  | none => s

/-- An observable event of the persistence layer. -/
inductive SyncEvent
  | change (items : List Item)
  | tick
deriving DecidableEq, Repr

/-- Run one timed event. -/
def syncStep (s : SyncState) (now : Nat) (e : SyncEvent) : SyncState :=
  match e with
  | .change items => onItemsChange s now items
  | .tick => firePush s now

/-- Run a timed trace. -/
def syncRun (s : SyncState) (tr : List (Nat × SyncEvent)) : SyncState :=
  tr.foldl (fun s te => syncStep s te.1 te.2) s

/-! ## C1: stock derivation -/

/-- The signed contribution of one transaction to the stock figure. -/
def signedQty (t : Transaction) : Int :=
  if t.ttype = .purchase then t.quantity else -t.quantity

/-- Sum of the Inbound quantities of a transaction sequence. -/
def inboundTotal (ts : List Transaction) : Int :=
  ((ts.filter (fun t => t.ttype == TxType.purchase)).map (fun t => t.quantity)).sum

/-- Sum of the Outbound quantities of a transaction sequence. -/
def outboundTotal (ts : List Transaction) : Int :=
  ((ts.filter (fun t => !(t.ttype == TxType.purchase))).map (fun t => t.quantity)).sum

theorem stock_foldl (ts : List Transaction) (acc : Int) :
    ts.foldl (fun acc t => if t.ttype = .purchase then acc + t.quantity else acc - t.quantity)
      acc = acc + (ts.map signedQty).sum := by
  induction ts generalizing acc with
  | nil => simp
  | cons t ts ih =>
    simp only [List.foldl_cons, List.map_cons, List.sum_cons, ih]
    by_cases h : t.ttype = .purchase <;> simp [signedQty, h] <;> ring

theorem signed_sum_split (ts : List Transaction) :
    (ts.map signedQty).sum = inboundTotal ts - outboundTotal ts := by
  induction ts with
  | nil => simp [inboundTotal, outboundTotal]
  | cons t ts ih =>
    by_cases h : t.ttype = .purchase <;>
      simp [inboundTotal, outboundTotal, signedQty, h, List.filter_cons] at ih ⊢ <;>
      rw [ih] <;> ring

/-- Claim C1: for every item, `deriveStock` (`calculateStock`) returns the
sum of the quantities of its Inbound (`'purchase'`) transactions minus the
sum of the quantities of its Outbound (`'release'`) transactions, and the
value is unchanged under every permutation of the transaction sequence. -/
theorem claim_C1 (item : Item) :
    calculateStock item = inboundTotal item.transactions - outboundTotal item.transactions
    ∧ ∀ ts' : List Transaction, item.transactions.Perm ts' →
        calculateStock { item with transactions := ts' } = calculateStock item := by
  constructor
  · rw [calculateStock, stock_foldl, zero_add, signed_sum_split]
  · intro ts' hperm
    show ts'.foldl _ 0 = item.transactions.foldl _ 0
    rw [stock_foldl, stock_foldl, zero_add, zero_add]
    exact ((hperm.map signedQty).sum_eq).symm

def c1t1 : Transaction := { ttype := .purchase, quantity := 5, date := "d1", id := "t-1" }

def c1t2 : Transaction := { ttype := .release, quantity := 2, date := "d2", id := "t-2" }

def c1Item : Item :=
  { id := "item-1", itype := .part, code := "CT1", name := "WIDGET",
    transactions := [c1t1, c1t2] }

/-- Witness for C1 at a concrete item and a concrete permutation. -/
theorem claim_C1_witness :
    calculateStock { c1Item with transactions := [c1t2, c1t1] } = calculateStock c1Item :=
  (claim_C1 c1Item).2 [c1t2, c1t1] (List.Perm.swap c1t2 c1t1 [])

/-! ## Character-class facts -/

theorem isLetter_iff (c : Char) :
    isLetter c = true ↔ (97 ≤ c.toNat ∧ c.toNat ≤ 122) ∨ (65 ≤ c.toNat ∧ c.toNat ≤ 90) := by
  unfold isLetter
  simp only [Bool.or_eq_true, Bool.and_eq_true, decide_eq_true_eq]
  exact Iff.rfl

theorem isDigit_iff (c : Char) : c.isDigit = true ↔ 48 ≤ c.toNat ∧ c.toNat ≤ 57 := by
  unfold Char.isDigit
  simp only [Bool.and_eq_true, decide_eq_true_eq]
  exact Iff.rfl

theorem not_isDigit_of_isLetter {c : Char} (h : isLetter c = true) : c.isDigit = false := by
  rw [Bool.eq_false_iff, ne_eq, isDigit_iff]
  rw [isLetter_iff] at h
  omega

theorem not_isSpaceJS_of_isDigit {c : Char} (h : c.isDigit = true) : isSpaceJS c = false := by
  rw [Bool.eq_false_iff, ne_eq]
  intro hs
  unfold isSpaceJS at hs
  simp only [Bool.or_eq_true, beq_iff_eq] at hs
  rcases hs with ((((rfl | rfl) | rfl) | rfl) | rfl) | rfl <;> simp [isDigit_iff] at h

theorem not_isSpaceJS_of_isLetter {c : Char} (h : isLetter c = true) : isSpaceJS c = false := by
  rw [Bool.eq_false_iff, ne_eq]
  intro hs
  unfold isSpaceJS at hs
  simp only [Bool.or_eq_true, beq_iff_eq] at hs
  rcases hs with ((((rfl | rfl) | rfl) | rfl) | rfl) | rfl <;> simp [isLetter_iff] at h

theorem dotChar_of_isLetter {c : Char} (h : isLetter c = true) : dotChar c = true := by
  unfold dotChar
  simp only [Bool.not_eq_true', Bool.or_eq_false_iff, beq_eq_false_iff_ne, ne_eq]
  rw [isLetter_iff] at h
  refine ⟨⟨⟨?_, ?_⟩, ?_⟩, ?_⟩ <;> rintro rfl <;> simp at h

theorem dotChar_of_isDigit {c : Char} (h : c.isDigit = true) : dotChar c = true := by
  unfold dotChar
  simp only [Bool.not_eq_true', Bool.or_eq_false_iff, beq_eq_false_iff_ne, ne_eq]
  rw [isDigit_iff] at h
  refine ⟨⟨⟨?_, ?_⟩, ?_⟩, ?_⟩ <;> rintro rfl <;> simp at h

theorem ne_tilde_of_isDigit {c : Char} (h : c.isDigit = true) : c ≠ '~' := by
  rintro rfl
  simp [isDigit_iff] at h

theorem ne_tilde_of_isLetter {c : Char} (h : isLetter c = true) : c ≠ '~' := by
  rintro rfl
  simp [isLetter_iff] at h

/-! ## List helpers -/

theorem takeWhile_all_eq {p : Char → Bool} {l : List Char} (h : l.all p = true) :
    l.takeWhile p = l := by
  induction l with
  | nil => rfl
  | cons c r ih =>
    simp only [List.all_cons, Bool.and_eq_true] at h
    rw [List.takeWhile_cons, if_pos h.1, ih h.2]

theorem takeWhile_append_all {p : Char → Bool} {l₁ : List Char} (l₂ : List Char)
    (h : l₁.all p = true) : (l₁ ++ l₂).takeWhile p = l₁ ++ l₂.takeWhile p := by
  induction l₁ with
  | nil => rfl
  | cons c r ih =>
    simp only [List.all_cons, Bool.and_eq_true] at h
    simp only [List.cons_append, List.takeWhile_cons, if_pos h.1, ih h.2]

/-- `parseInt` on a non-empty all-digits string is its decimal value. -/
theorem jsParseInt_digits {l : List Char} (hne : l ≠ []) (hd : l.all Char.isDigit = true) :
    jsParseInt (String.mk l) = some ((digitsToNat l : Nat) : Int) := by
  match l, hne with
  | c :: r, _ =>
    simp only [List.all_cons, Bool.and_eq_true] at hd
    show jsParseInt (String.mk (c :: r)) = _
    unfold jsParseInt
    have hdrop : (String.mk (c :: r)).data.dropWhile isSpaceJS = c :: r := by
      show (c :: r).dropWhile isSpaceJS = c :: r
      rw [List.dropWhile_cons, if_neg (by simp [not_isSpaceJS_of_isDigit hd.1])]
    rw [hdrop]
    have hplus : c ≠ '+' := by rintro rfl; simp [isDigit_iff] at hd
    have hminus : c ≠ '-' := by rintro rfl; simp [isDigit_iff] at hd
    have hm : (match c :: r with
        | '+' :: r => ((1 : Int), r)
        | '-' :: r => ((-1 : Int), r)
        | r => ((1 : Int), r)) = ((1 : Int), c :: r) := by
      split
      · next heq => exact absurd (List.cons.inj heq).1 hplus
      · next heq => exact absurd (List.cons.inj heq).1 hminus
      · rfl
    dsimp only
    rw [hm, takeWhile_all_eq (by simp [List.all_cons, hd.1, hd.2])]
    simp

theorem all_takeWhile (p : Char → Bool) (l : List Char) : (l.takeWhile p).all p = true := by
  induction l with
  | nil => rfl
  | cons c r ih =>
    rw [List.takeWhile_cons]
    split
    · next hc => simp [hc, ih]
    · rfl

/-! ## What the range-pattern captures can be -/

/-- The guard `!r.isEmpty && r.all isDigit` says exactly: non-empty, all
digits. -/
theorem guard_spec {l : List Char} (h : (!l.isEmpty && l.all Char.isDigit) = true) :
    l ≠ [] ∧ l.all Char.isDigit = true := by
  simp only [Bool.and_eq_true, Bool.not_eq_true', List.isEmpty_eq_false] at h
  exact h

theorem matchTail_spec : ∀ {r g4 : List Char}, matchTail r = some g4 →
    g4 ≠ [] ∧ g4.all Char.isDigit = true := by
  intro r
  induction r with
  | nil => intro g4 h; simp [matchTail] at h
  | cons c rest ih =>
    intro g4 h
    simp only [matchTail] at h
    split at h
    · split at h
      · next hc =>
        obtain rfl := Option.some.inj h
        exact guard_spec hc
      · exact ih h
    · exact absurd h (by simp)

theorem matchEnd_spec {r g4 : List Char} (h : matchEnd r = some g4) :
    g4 ≠ [] ∧ g4.all Char.isDigit = true := by
  unfold matchEnd at h
  split at h
  · next heq => obtain rfl := Option.some.inj h; exact matchTail_spec heq
  · split at h
    · next hc =>
      obtain rfl := Option.some.inj h
      exact guard_spec hc
    · exact absurd h (by simp)

theorem tryWsAux_spec : ∀ {w : Nat} {r g4 : List Char}, tryWsAux r w = some g4 →
    g4 ≠ [] ∧ g4.all Char.isDigit = true := by
  intro w
  induction w with
  | zero => intro r g4 h; exact matchEnd_spec h
  | succ w ih =>
    intro r g4 h
    simp only [tryWsAux] at h
    split at h
    · next heq => obtain rfl := Option.some.inj h; exact matchEnd_spec heq
    · exact ih h

theorem matchAfterTilde_spec {r g4 : List Char} (h : matchAfterTilde r = some g4) :
    g4 ≠ [] ∧ g4.all Char.isDigit = true := tryWsAux_spec h

theorem matchAt_spec {rest ds g4 : List Char} (h : matchAt rest = some (ds, g4)) :
    ds ≠ [] ∧ ds.all Char.isDigit = true ∧ g4 ≠ [] ∧ g4.all Char.isDigit = true := by
  unfold matchAt at h
  dsimp only at h
  split at h
  · exact absurd h (by simp)
  · next hne =>
    split at h
    · next heq =>
      rw [Option.map_eq_some'] at h
      obtain ⟨g4', hg4', hpair⟩ := h
      simp only [Prod.mk.injEq] at hpair
      obtain ⟨rfl, rfl⟩ := hpair
      have h34 := matchAfterTilde_spec hg4'
      refine ⟨by simpa using hne, all_takeWhile _ _, h34.1, h34.2⟩
    · exact absurd h (by simp)

theorem matchRangeAux_spec : ∀ {rest g1 p ds es : List Char},
    matchRangeAux g1 rest = some (p, ds, es) →
    ds ≠ [] ∧ ds.all Char.isDigit = true ∧ es ≠ [] ∧ es.all Char.isDigit = true := by
  intro rest
  induction rest with
  | nil =>
    intro g1 p ds es h
    rw [matchRangeAux] at h
    split at h
    · next heq =>
      simp only [Option.some.injEq, Prod.mk.injEq] at h
      obtain ⟨-, rfl, rfl⟩ := h
      have hspec := matchAt_spec heq
      exact ⟨hspec.1, hspec.2.1, hspec.2.2.1, hspec.2.2.2⟩
    · exact absurd h (by simp)
  | cons c rest2 ih =>
    intro g1 p ds es h
    rw [matchRangeAux] at h
    split at h
    · next heq =>
      simp only [Option.some.injEq, Prod.mk.injEq] at h
      obtain ⟨-, rfl, rfl⟩ := h
      have hspec := matchAt_spec heq
      exact ⟨hspec.1, hspec.2.1, hspec.2.2.1, hspec.2.2.2⟩
    · split at h
      · exact ih h
      · exact absurd h (by simp)

theorem matchRange_spec {l p ds es : List Char} (h : matchRange l = some (p, ds, es)) :
    ds ≠ [] ∧ ds.all Char.isDigit = true ∧ es ≠ [] ∧ es.all Char.isDigit = true := by
  match l with
  | [] => simp [matchRange] at h
  | c :: rest =>
    simp only [matchRange] at h
    split at h
    · exact matchRangeAux_spec h
    · exact absurd h (by simp)

theorem mk_append (l₁ l₂ : List Char) :
    String.mk l₁ ++ String.mk l₂ = String.mk (l₁ ++ l₂) := rfl

theorem all_replicate_zero (k : Nat) : (List.replicate k '0').all Char.isDigit = true := by
  induction k with
  | zero => rfl
  | succ k ih => simp [List.replicate_succ, ih]

/-- Claim C4: on an input matched by the range pattern, `expandRange`
(`parseSerialRange`) returns the inclusive ascending sequence of serials
from the start capture's number to the end capture's number, each numeral
zero-padded to the start capture's digit width, and throws
`RangeTooLargeError` exactly when the inclusive count exceeds 100; on a
non-matching input, or when start > end, it returns the one-element
sequence holding the trimmed input (the non-numeric-side fallback is
subsumed: both captures are digit runs, so `parseInt` never yields `NaN`,
cf. `matchRange_spec`).  In particular `"SN00001~00010"` expands to the
ten serials SN00001..SN00010 and `"SN00001~00105"` throws. -/
theorem claim_C4 (s : String) :
    (matchRange s.data = none → parseSerialRange s = .ok [jsTrim s])
    ∧ (∀ p ds es, matchRange s.data = some (p, ds, es) →
        (digitsToNat ds > digitsToNat es → parseSerialRange s = .ok [jsTrim s])
        ∧ (digitsToNat ds ≤ digitsToNat es →
            ((parseSerialRange s = .error .rangeTooLarge)
              ↔ digitsToNat es - digitsToNat ds + 1 > 100))
        ∧ (digitsToNat ds ≤ digitsToNat es → digitsToNat es - digitsToNat ds < 100 →
            ∃ l, parseSerialRange s = .ok l
              ∧ l.length = digitsToNat es - digitsToNat ds + 1
              ∧ ∀ i (hi : i < l.length), ∃ ns : List Char,
                  l.get ⟨i, hi⟩ = String.mk (p ++ ns)
                  ∧ ns.all Char.isDigit = true
                  ∧ digitsToNat ns = digitsToNat ds + i
                  ∧ ns.length = max ds.length (natToDigits (digitsToNat ds + i)).length))
    ∧ parseSerialRange "SN00001~00010" = .ok ["SN00001", "SN00002", "SN00003", "SN00004",
        "SN00005", "SN00006", "SN00007", "SN00008", "SN00009", "SN00010"]
    ∧ parseSerialRange "SN00001~00105" = .error .rangeTooLarge := by
  refine ⟨?_, ?_, rfl, rfl⟩
  · intro h
    simp only [parseSerialRange, h]
  · intro p ds es hm
    have hg := matchRange_spec hm
    have hds := jsParseInt_digits hg.1 hg.2.1
    have hes := jsParseInt_digits hg.2.2.1 hg.2.2.2
    refine ⟨?_, ?_, ?_⟩
    · intro hab
      simp only [parseSerialRange, hm, hds, hes]
      rw [if_pos (by exact_mod_cast hab)]
    · intro hab
      simp only [parseSerialRange, hm, hds, hes]
      rw [if_neg (by omega)]
      by_cases hc : ((digitsToNat es : Int) - (digitsToNat ds : Int) ≥ 100)
      · rw [if_pos hc]
        exact ⟨fun _ => by omega, fun _ => rfl⟩
      · rw [if_neg hc]
        constructor
        · intro hfalse
          exact absurd hfalse (by simp)
        · intro hcount
          exact absurd hcount (by omega)
    · intro hab hlt
      simp only [parseSerialRange, hm, hds, hes]
      rw [if_neg (by omega), if_neg (by omega)]
      refine ⟨_, rfl, ?_, ?_⟩
      · simp only [List.length_map, List.length_range]
        omega
      · intro i hi
        refine ⟨List.replicate (ds.length - (natToDigits (digitsToNat ds + i)).length) '0'
          ++ natToDigits (digitsToNat ds + i), ?_, ?_, ?_, ?_⟩
        · simp only [List.get_eq_getElem, List.getElem_map, List.getElem_range]
          rw [show ((digitsToNat ds : Int)).toNat = digitsToNat ds by omega]
          rw [mk_append]
          rfl
        · simp only [List.all_append, Bool.and_eq_true]
          exact ⟨all_replicate_zero _, natToDigits_all_digit _⟩
        · rw [digitsToNat_replicate_zero_append, digitsToNat_natToDigits]
        · simp only [List.length_append, List.length_replicate]
          omega

/-- Witness for C4: the theorem applied at `"SN00001~00105"`, whose
captures are concrete, discharging the match and bound hypotheses there. -/
theorem claim_C4_witness : parseSerialRange "SN00001~00105" = .error .rangeTooLarge :=
  (((claim_C4 "SN00001~00105").2.1 "SN".data "00001".data "0105".data (by decide)).2.1
    (by decide)).mpr (by decide)

/-! ## Computing the match on a well-formed two-sided range input -/

/-- One unfolding step of the lazy-head search. -/
theorem matchRangeAux_step (g1 rest : List Char) : matchRangeAux g1 rest =
    match matchAt rest with
    | some (ds, g4) => some (g1.reverse, ds, g4)
    | none =>
      match rest with
      | [] => none
      | c :: rest2 => if dotChar c then matchRangeAux (c :: g1) rest2 else none := by
  cases rest <;> rfl

theorem matchAt_letter {c : Char} (hc : isLetter c = true) (rest : List Char) :
    matchAt (c :: rest) = none := by
  unfold matchAt
  dsimp only
  rw [List.takeWhile_cons_of_neg (by simp [not_isDigit_of_isLetter hc])]
  rfl

theorem matchRangeAux_skip {a : List Char} (ha : a.all isLetter = true) :
    ∀ g1 rest, matchRangeAux g1 (a ++ rest) = matchRangeAux (a.reverse ++ g1) rest := by
  induction a with
  | nil => intro g1 rest; rfl
  | cons c a2 ih =>
    intro g1 rest
    simp only [List.all_cons, Bool.and_eq_true] at ha
    rw [List.cons_append, matchRangeAux, matchAt_letter ha.1]
    rw [if_pos (dotChar_of_isLetter ha.1), ih ha.2]
    simp [List.append_assoc]

theorem matchTail_letters : ∀ {b : List Char}, b ≠ [] → b.all isLetter = true →
    ∀ {e : List Char}, e ≠ [] → e.all Char.isDigit = true → matchTail (b ++ e) = some e := by
  intro b
  induction b with
  | nil => intro h; contradiction
  | cons c b2 ih =>
    intro _ hbl e he hed
    simp only [List.all_cons, Bool.and_eq_true] at hbl
    rw [List.cons_append, matchTail, if_pos (dotChar_of_isLetter hbl.1)]
    cases b2 with
    | nil =>
      rw [List.nil_append, if_pos]
      simp only [Bool.and_eq_true, Bool.not_eq_true', List.isEmpty_eq_false]
      exact ⟨he, hed⟩
    | cons c2 b3 =>
      have hc2 : isLetter c2 = true := by
        have h2 := hbl.2
        simp only [List.all_cons, Bool.and_eq_true] at h2
        exact h2.1
      have hneg : ¬((!((c2 :: b3) ++ e).isEmpty && ((c2 :: b3) ++ e).all Char.isDigit)
          = true) := by
        simp only [List.cons_append, List.all_cons, Bool.and_eq_true, Bool.not_eq_true',
          List.isEmpty_eq_false, not_and]
        intro _ hdig
        exact absurd hdig (by simp [not_isDigit_of_isLetter hc2])
      rw [if_neg hneg, ih (by simp) hbl.2 he hed]

theorem matchEnd_letters {b : List Char} (hb : b ≠ []) (hbl : b.all isLetter = true)
    {e : List Char} (he : e ≠ []) (hed : e.all Char.isDigit = true) :
    matchEnd (b ++ e) = some e := by
  unfold matchEnd
  rw [matchTail_letters hb hbl he hed]

theorem matchAfterTilde_letters {b : List Char} (hb : b ≠ []) (hbl : b.all isLetter = true)
    {e : List Char} (he : e ≠ []) (hed : e.all Char.isDigit = true) :
    matchAfterTilde (b ++ e) = some e := by
  unfold matchAfterTilde
  cases b with
  | nil => exact absurd rfl hb
  | cons c b2 =>
    have hbl2 := hbl
    simp only [List.all_cons, Bool.and_eq_true] at hbl2
    rw [List.cons_append,
      List.takeWhile_cons_of_neg (by simp [not_isSpaceJS_of_isLetter hbl2.1])]
    exact matchEnd_letters hb hbl he hed

theorem matchAt_digits_tilde {d : List Char} (hd : d ≠ []) (hdd : d.all Char.isDigit = true)
    (r2 : List Char) :
    matchAt (d ++ '~' :: r2) = (matchAfterTilde r2).map (fun g4 => (d, g4)) := by
  unfold matchAt
  dsimp only
  rw [takeWhile_append_all _ hdd, List.takeWhile_cons_of_neg (by simp), List.append_nil]
  rw [if_neg (by simpa [List.isEmpty_eq_false] using hd)]
  rw [List.drop_left]
  rw [List.takeWhile_cons_of_neg (by simp [isSpaceJS])]
  rfl

/-- On an input `<lettersA><digits>~<lettersB><digits>` the pattern binds
capture 1 to `<lettersA>`, capture 2 to the left digits and capture 4 to
the right digits; `<lettersB>` is swallowed by the unread capture 3. -/
theorem matchRange_two_sided {pA d b e : List Char}
    (hA : pA ≠ []) (hAl : pA.all isLetter = true)
    (hd : d ≠ []) (hdd : d.all Char.isDigit = true)
    (hb : b ≠ []) (hbl : b.all isLetter = true)
    (he : e ≠ []) (hed : e.all Char.isDigit = true) :
    matchRange (pA ++ d ++ '~' :: (b ++ e)) = some (pA, d, e) := by
  cases pA with
  | nil => exact absurd rfl hA
  | cons c a2 =>
    have hAl2 := hAl
    simp only [List.all_cons, Bool.and_eq_true] at hAl2
    show matchRange (c :: (a2 ++ d ++ '~' :: (b ++ e))) = _
    simp only [matchRange]
    rw [if_pos (dotChar_of_isLetter hAl2.1)]
    rw [show a2 ++ d ++ '~' :: (b ++ e) = a2 ++ (d ++ '~' :: (b ++ e)) by
      simp [List.append_assoc]]
    rw [matchRangeAux_skip hAl2.2, matchRangeAux_step,
      matchAt_digits_tilde hd hdd (b ++ e), matchAfterTilde_letters hb hbl he hed]
    simp

/-- Claim C10: `expandRange` (`parseSerialRange`) ignores the end side's
letter prefix of a two-sided range input: on
`<prefixA><digits>~<prefixB><digits>` the pattern's captures are prefixA
and the two digit runs whatever prefixB is (first conjunct — no check
relates the two prefixes), an in-bounds ascending range expands to the
same serial list for any two choices of prefixB, every generated serial
starting with prefixA (second conjunct), and an oversized range fails the
same way (third conjunct). -/
theorem claim_C10 (pA pB pB2 d1 d2 : List Char)
    (hA : pA ≠ []) (hAl : pA.all isLetter = true)
    (hB : pB ≠ []) (hBl : pB.all isLetter = true)
    (hB2 : pB2 ≠ []) (hB2l : pB2.all isLetter = true)
    (h1 : d1 ≠ []) (h1d : d1.all Char.isDigit = true)
    (h2 : d2 ≠ []) (h2d : d2.all Char.isDigit = true) :
    matchRange (pA ++ d1 ++ '~' :: (pB ++ d2)) = some (pA, d1, d2)
    ∧ (digitsToNat d1 ≤ digitsToNat d2 → digitsToNat d2 - digitsToNat d1 < 100 →
        ∃ l, parseSerialRange (String.mk (pA ++ d1 ++ '~' :: (pB ++ d2))) = .ok l
          ∧ parseSerialRange (String.mk (pA ++ d1 ++ '~' :: (pB2 ++ d2))) = .ok l
          ∧ l ≠ []
          ∧ ∀ x ∈ l, ∃ sfx : List Char, x = String.mk (pA ++ sfx))
    ∧ (digitsToNat d1 ≤ digitsToNat d2 → digitsToNat d2 - digitsToNat d1 ≥ 100 →
        parseSerialRange (String.mk (pA ++ d1 ++ '~' :: (pB ++ d2))) = .error .rangeTooLarge
        ∧ parseSerialRange (String.mk (pA ++ d1 ++ '~' :: (pB2 ++ d2)))
            = .error .rangeTooLarge) := by
  have hm : matchRange (pA ++ d1 ++ '~' :: (pB ++ d2)) = some (pA, d1, d2) :=
    matchRange_two_sided hA hAl h1 h1d hB hBl h2 h2d
  have hm2 : matchRange (pA ++ d1 ++ '~' :: (pB2 ++ d2)) = some (pA, d1, d2) :=
    matchRange_two_sided hA hAl h1 h1d hB2 hB2l h2 h2d
  have hds := jsParseInt_digits h1 h1d
  have hes := jsParseInt_digits h2 h2d
  refine ⟨hm, ?_, ?_⟩
  · intro hle hlt
    have e1 : parseSerialRange (String.mk (pA ++ d1 ++ '~' :: (pB ++ d2))) =
        .ok ((List.range ((((digitsToNat d2 : Int)) - (digitsToNat d1 : Int)).toNat + 1)).map
          (fun j => String.mk pA
            ++ padZeros (natToDecimal (((digitsToNat d1 : Int)).toNat + j)) d1.length)) := by
      simp only [parseSerialRange, hm, hds, hes]
      rw [if_neg (by omega), if_neg (by omega)]
    have e2 : parseSerialRange (String.mk (pA ++ d1 ++ '~' :: (pB2 ++ d2))) =
        .ok ((List.range ((((digitsToNat d2 : Int)) - (digitsToNat d1 : Int)).toNat + 1)).map
          (fun j => String.mk pA
            ++ padZeros (natToDecimal (((digitsToNat d1 : Int)).toNat + j)) d1.length)) := by
      simp only [parseSerialRange, hm2, hds, hes]
      rw [if_neg (by omega), if_neg (by omega)]
    refine ⟨_, e1, e2, ?_, ?_⟩
    · simp
    · intro x hx
      simp only [List.mem_map] at hx
      obtain ⟨j, -, rfl⟩ := hx
      exact ⟨_, (mk_append _ _).symm⟩
  · intro hle hge
    constructor
    · simp only [parseSerialRange, hm, hds, hes]
      rw [if_neg (by omega), if_pos (by omega)]
    · simp only [parseSerialRange, hm2, hds, hes]
      rw [if_neg (by omega), if_pos (by omega)]

/-- Witness for C10: two different end-side prefixes on the same range
expand identically (and the theorem's hypotheses hold at these concrete
lists). -/
theorem claim_C10_witness :
    parseSerialRange "SN001~AB003" = parseSerialRange "SN001~ZZ003" := by
  obtain ⟨l, hab, hzz, -, -⟩ :=
    (claim_C10 "SN".data "AB".data "ZZ".data "001".data "003".data
      (by decide) (by decide) (by decide) (by decide) (by decide) (by decide)
      (by decide) (by decide) (by decide) (by decide)).2.1 (by decide) (by decide)
  exact hab.trans hzz.symm

/-! ## C5: the next-serial suggestion -/

/-- The numeric captures of the serials that match `<letters><digits>`,
in sequence order. -/
def matchedSuffixes (l : List String) : List Nat :=
  l.filterMap (fun s => (serialMatch s).map (fun pr => digitsToNat pr.2))

/-- The maximum numeric suffix over the matching serials (0 when none
match). -/
def maxSuffix (l : List String) : Nat := (matchedSuffixes l).foldr max 0

/-- The letter capture of the *last* serial in sequence order that
matches the pattern (`"SN"` when none matches). -/
def lastMatchedPrefix (l : List String) : String :=
  (l.filterMap (fun s => (serialMatch s).map Prod.fst)).getLastD "SN"

theorem suggestStep_foldl (l : List String) : ∀ m p,
    l.foldl suggestStep (m, p) =
      (max m (maxSuffix l),
        (l.filterMap (fun s => (serialMatch s).map Prod.fst)).getLastD p) := by
  induction l with
  | nil => intro m p; simp [maxSuffix, matchedSuffixes]
  | cons s t ih =>
    intro m p
    rw [List.foldl_cons]
    cases hsm : serialMatch s with
    | none =>
      rw [show suggestStep (m, p) s = (m, p) by simp [suggestStep, hsm], ih]
      simp [maxSuffix, matchedSuffixes, List.filterMap_cons, hsm]
    | some pr =>
      obtain ⟨pfx, ds⟩ := pr
      rw [show suggestStep (m, p) s = (max m (digitsToNat ds), pfx) by
        simp only [suggestStep, hsm]
        refine Prod.ext ?_ rfl
        show (if digitsToNat ds > m then digitsToNat ds else m) = max m (digitsToNat ds)
        split <;> omega, ih]
      simp only [maxSuffix, matchedSuffixes, List.filterMap_cons, hsm, Option.map_some',
        List.foldr_cons, List.getLastD_cons]
      refine Prod.ext ?_ rfl
      show max (max m (digitsToNat ds)) _ = max m (max (digitsToNat ds) _)
      omega

/-- Claim C5, amended: on an empty set of used serials
`suggestNextSerial` returns the seed `"SN00001"`; on a non-empty list it
returns a prefix followed by a numeral whose value is exactly one greater
than the maximum numeric suffix among the pattern-matching serials,
zero-padded to at least 5 digits (more if the incremented number needs
more) — but the prefix is that of the *last* pattern-matching serial in
sequence order (`"SN"` if none matches), not that of the serial carrying
the maximum. -/
theorem claim_C5 (l : List String) (hne : l ≠ []) :
    suggestNextSerial [] = "SN00001"
    ∧ ∃ ns : List Char,
        suggestNextSerial l = lastMatchedPrefix l ++ String.mk ns
        ∧ ns.all Char.isDigit = true
        ∧ digitsToNat ns = maxSuffix l + 1
        ∧ ns.length = max 5 (natToDigits (maxSuffix l + 1)).length := by
  refine ⟨rfl, ?_⟩
  unfold suggestNextSerial
  rw [if_neg (by simpa [List.isEmpty_eq_false] using hne)]
  rw [suggestStep_foldl l 0 "SN"]
  dsimp only
  rw [Nat.zero_max]
  refine ⟨(padZeros (natToDecimal (maxSuffix l + 1))
    (max 5 (natToDecimal (maxSuffix l + 1)).length)).data, ?_, ?_, ?_, ?_⟩
  · rfl
  · simp only [padZeros, natToDecimal, List.all_append, Bool.and_eq_true]
    exact ⟨all_replicate_zero _, natToDigits_all_digit _⟩
  · exact digitsToNat_padZeros _ _
  · simp only [padZeros, natToDecimal, List.length_append, List.length_replicate]
    have hl : (natToDigits (maxSuffix l + 1)).length = (String.mk
      (natToDigits (maxSuffix l + 1))).length := rfl
    omega

/-- Witness for C5 at a concrete non-empty list. -/
theorem claim_C5_witness : suggestNextSerial [] = "SN00001" :=
  (claim_C5 ["X1"] (by decide)).1

/-- Counterexample for C5 as frozen: with used serials
`["AB00007", "CD00003"]` the maximum suffix 7 is carried by `"AB00007"`,
so the claim predicts `"AB00008"`; the code overwrites the remembered
prefix on every match and returns `"CD00008"`. -/
theorem claim_C5_counterexample :
    suggestNextSerial ["AB00007", "CD00003"] = "CD00008"
    ∧ suggestNextSerial ["AB00007", "CD00003"] ≠ "AB00008" := by
  constructor
  · rfl
  · decide

/-! ## C8: the secret gate -/

/-- Claim C8, amended: on a secret mismatch both gates
(`handleActionConfirm` — item field-edit commit, transaction field edit,
transaction deletion — and `handleDeleteItemConfirm` — item deletion)
abort with the whole state unchanged: the operation is not applied and
the collection is untouched, but the secret input is *not* cleared — it
retains the entered value (it is cleared only on a successful confirm or
an explicit cancel). -/
theorem claim_C8 (role : Role) (ms : ModalState) (ds : AppDeleteState)
    (hm : ms.password ≠ requiredPass role)
    (hd : ds.deletePassword ≠ requiredPass role) :
    handleActionConfirm role ms = ms
    ∧ (handleActionConfirm role ms).items = ms.items
    ∧ (handleActionConfirm role ms).password = ms.password
    ∧ handleDeleteItemConfirm role ds = ds
    ∧ (handleDeleteItemConfirm role ds).items = ds.items
    ∧ (handleDeleteItemConfirm role ds).deletePassword = ds.deletePassword := by
  have h1 : handleActionConfirm role ms = ms := by
    unfold handleActionConfirm
    rw [if_pos hm]
  have h2 : handleDeleteItemConfirm role ds = ds := by
    unfold handleDeleteItemConfirm
    rw [if_pos hd]
  exact ⟨h1, by rw [h1], by rw [h1], h2, by rw [h2], by rw [h2]⟩

def c8State : ModalState :=
  { items := [], itemId := "item-1", password := "9999",
    showPasswordInput := some (.transDelete "t-1") }

def c8DelState : AppDeleteState :=
  { items := [], deletePassword := "9999", itemToDelete := some "item-1" }

/-- Witness for C8 at concrete mismatching secrets. -/
theorem claim_C8_witness :
    handleActionConfirm Role.admin c8State = c8State
    ∧ handleDeleteItemConfirm Role.admin c8DelState = c8DelState := by
  have h := claim_C8 Role.admin c8State c8DelState (by decide) (by decide)
  exact ⟨h.1, h.2.2.2.1⟩

/-- Counterexample for C8 as frozen: the claim says the secret input is
cleared on a mismatch; entering the wrong secret `"9999"` leaves the
secret input holding `"9999"` — it is not cleared.  (The same holds for
the delete gate's `deletePassword`.) -/
theorem claim_C8_counterexample :
    (handleActionConfirm Role.admin c8State).password = "9999"
    ∧ (handleActionConfirm Role.admin c8State).password ≠ ""
    ∧ (handleDeleteItemConfirm Role.admin c8DelState).deletePassword = "9999"
    ∧ (handleDeleteItemConfirm Role.admin c8DelState).deletePassword ≠ "" := by
  refine ⟨rfl, by decide, rfl, by decide⟩

/-! ## C9: local persistence and the debounced push -/

/-- A burst starting from a change at time `t`: every later event happens
before the quiet period after the most recent change has elapsed. -/
inductive WithinBurst : Nat → List (Nat × SyncEvent) → Prop
  | nil (t : Nat) : WithinBurst t []
  | tick (t u : Nat) (tr : List (Nat × SyncEvent)) :
      u < t + DEBOUNCE_MS → WithinBurst t tr → WithinBurst t ((u, .tick) :: tr)
  | change (t u : Nat) (its : List Item) (tr : List (Nat × SyncEvent)) :
      t ≤ u → u < t + DEBOUNCE_MS → WithinBurst u tr →
      WithinBurst t ((u, .change its) :: tr)

/-- The time and payload of the most recent change after a trace
(starting from a change at `t` with payload `its`). -/
def lastChange (t : Nat) (its : List Item) : List (Nat × SyncEvent) → Nat × List Item
  | [] => (t, its)
  | (u, .change its2) :: tr => lastChange u its2 tr
  | (_, .tick) :: tr => lastChange t its tr

theorem burst_run : ∀ {tr : List (Nat × SyncEvent)} {t : Nat} {its : List Item}
    {s : SyncState}, WithinBurst t tr →
    s.pendingPush = (if its.length > 0 then some (t + DEBOUNCE_MS, its) else none) →
    s.localStore = its →
    (syncRun s tr).pushed = s.pushed
    ∧ (syncRun s tr).localStore = (lastChange t its tr).2
    ∧ (syncRun s tr).pendingPush =
        (if (lastChange t its tr).2.length > 0
          then some ((lastChange t its tr).1 + DEBOUNCE_MS, (lastChange t its tr).2)
          else none) := by
  intro tr
  induction tr with
  | nil =>
    intro t its s _ hpend hloc
    exact ⟨rfl, hloc, hpend⟩
  | cons te tr ih =>
    intro t its s hburst hpend hloc
    obtain ⟨u, e⟩ := te
    cases hburst with
    | tick _ _ _ hu hb =>
      have hstep : firePush s u = s := by
        unfold firePush
        rw [hpend]
        by_cases hne : its.length > 0
        · rw [if_pos hne]
          show (if t + DEBOUNCE_MS ≤ u then _ else s) = s
          rw [if_neg (by omega)]
        · rw [if_neg hne]
      rw [show syncRun s ((u, SyncEvent.tick) :: tr) = syncRun (firePush s u) tr from rfl,
        show lastChange t its ((u, SyncEvent.tick) :: tr) = lastChange t its tr from rfl,
        hstep]
      exact ih hb hpend hloc
    | change _ _ _ _ hle hu hb =>
      rename_i its2
      rw [show syncRun s ((u, SyncEvent.change its2) :: tr)
          = syncRun (onItemsChange s u its2) tr from rfl,
        show lastChange t its ((u, SyncEvent.change its2) :: tr) = lastChange u its2 tr
          from rfl]
      exact ih hb rfl rfl

/-- Claim C9, amended: after every change the collection is persisted
locally at once and any previously scheduled push is cancelled, but a new
push is scheduled (one quiet period after the change) only when the
resulting collection is non-empty; a timer cannot fire before its
deadline; and over any burst of changes each within the quiet period of
the one before, nothing is pushed and only the final state stays
scheduled, so the tick after the burst pushes exactly the final state. -/
theorem claim_C9 (s : SyncState) (now : Nat) (items : List Item) :
    (onItemsChange s now items).localStore = items
    ∧ (onItemsChange s now items).pushed = s.pushed
    ∧ (onItemsChange s now items).pendingPush
        = (if items.length > 0 then some (now + DEBOUNCE_MS, items) else none)
    ∧ (∀ d payload, s.pendingPush = some (d, payload) → now < d → firePush s now = s)
    ∧ (∀ tr, WithinBurst now tr → items.length > 0 →
        ∀ T, T ≥ (lastChange now items tr).1 + DEBOUNCE_MS →
          (lastChange now items tr).2.length > 0 →
          (syncRun (onItemsChange s now items) (tr ++ [(T, .tick)])).pushed
            = (T, (lastChange now items tr).2) :: s.pushed) := by
  refine ⟨rfl, rfl, rfl, ?_, ?_⟩
  · intro d payload hpend hlt
    unfold firePush
    rw [hpend]
    dsimp only
    rw [if_neg (by omega)]
  · intro tr hburst hne T hT hlast
    have hrun := @burst_run tr now items (onItemsChange s now items) hburst rfl rfl
    rw [show syncRun (onItemsChange s now items) (tr ++ [(T, SyncEvent.tick)])
        = firePush (syncRun (onItemsChange s now items) tr) T from by
      unfold syncRun
      rw [List.foldl_append]
      rfl]
    unfold firePush
    rw [hrun.2.2, if_pos hlast]
    dsimp only
    rw [if_pos (show (lastChange now items tr).1 + DEBOUNCE_MS ≤ T by omega)]
    dsimp only
    rw [hrun.1]
    rfl

def c9Item : Item :=
  { id := "i-1", itype := .part, code := "C1", name := "N1", transactions := [] }

def c9State : SyncState :=
  { localStore := [c9Item], pendingPush := some (2000, [c9Item]), pushed := [] }

/-- Witness for C9: the early-tick conjunct applied at a concrete pending
state, and the burst conjunct applied to a concrete two-change burst. -/
theorem claim_C9_witness :
    firePush c9State 1500 = c9State
    ∧ (syncRun (onItemsChange c9State 0 [c9Item])
        [(1000, .change []), (1500, .change [c9Item]), (3499, .tick), (3500, .tick)]).pushed
      = [(3500, [c9Item])] := by
  constructor
  · exact (claim_C9 c9State 1500 [c9Item]).2.2.2.1 2000 [c9Item] rfl (by omega)
  · exact (claim_C9 c9State 0 [c9Item]).2.2.2.2
      [(1000, .change []), (1500, .change [c9Item]), (3499, .tick)]
      (by
        refine WithinBurst.change 0 1000 [] _ (by omega) (by decide) ?_
        refine WithinBurst.change 1000 1500 [c9Item] _ (by omega) (by decide) ?_
        refine WithinBurst.tick 1500 3499 _ (by decide) ?_
        exact WithinBurst.nil 1500)
      (by decide) 3500 (by decide) (by decide)

/-- Counterexample for C9 as frozen: the claim says a remote push is
scheduled after *every* change; a change that empties the collection
cancels the pending push and schedules nothing (`if (items.length > 0)`
guards the timer), so no push of the emptied collection will ever run. -/
theorem claim_C9_counterexample :
    c9State.pendingPush = some (2000, [c9Item])
    ∧ (onItemsChange c9State 5 []).pendingPush = none
    ∧ (onItemsChange c9State 5 []).localStore = [] := ⟨rfl, rfl, rfl⟩

/-! ## C2: the outbound stock check -/

/-- Claim C2, amended: an Outbound submission whose quantity (for a range
submission, the number of expanded serials) exceeds the item's currently
derived stock is rejected, no transaction is persisted and the collection
— hence every derived stock — is unchanged; an Outbound that also passes
the other submission validations (a positive quantity and no expanded
serial colliding with the registry) and does not exceed the stock is
accepted. -/
theorem claim_C2 (item : Item) (registry : List String) (f : SubmitForm) (now : String)
    (hrel : f.transactionType = .release) :
    (∀ targets isRange, expandTarget item f.serialNumber = .ok (targets, isRange) →
      submitCount f targets isRange > calculateStock item →
      ∃ e, submitTransaction item registry f now = .error e)
    ∧ (∀ e, submitTransaction item registry f now = .error e →
        ∀ items idf, submitAndApply items item registry f now idf = items)
    ∧ (∀ targets isRange, expandTarget item f.serialNumber = .ok (targets, isRange) →
        duplicatesOf registry targets = [] →
        0 < submitCount f targets isRange →
        submitCount f targets isRange ≤ calculateStock item →
        ∃ ds, submitTransaction item registry f now = .ok ds) := by
  refine ⟨?_, ?_, ?_⟩
  · intro targets isRange hexp hgt
    simp only [submitTransaction, hexp]
    by_cases hdup : duplicatesOf registry targets ≠ []
    · exact ⟨_, by rw [if_pos hdup]⟩
    · rw [if_neg hdup]
      by_cases hcnt : submitCount f targets isRange ≤ 0
      · exact ⟨_, by rw [if_pos hcnt]⟩
      · rw [if_neg hcnt]
        exact ⟨_, by rw [if_pos ⟨hrel, hgt⟩]⟩
  · intro e he items idf
    unfold submitAndApply
    rw [he]
  · intro targets isRange hexp hdup hpos hle
    simp only [submitTransaction, hexp]
    rw [if_neg (by simp [hdup]), if_neg (by omega),
      if_neg (by rintro ⟨-, hgt⟩; omega)]
    cases isRange
    · exact ⟨_, by rw [if_neg (by simp)]⟩
    · exact ⟨_, by rw [if_pos rfl]⟩

def c2Txn : Transaction := { ttype := .purchase, quantity := 5, date := "d", id := "t-1" }

def c2Item : Item :=
  { id := "item-2", itype := .part, code := "C2", name := "N2", transactions := [c2Txn] }

def c2Form : SubmitForm := { transactionType := .release, quantity := "9" }

/-- Witness for C2: a release of 9 against a stock of 5 is rejected and
the collection is unchanged. -/
theorem claim_C2_witness :
    (∃ e, submitTransaction c2Item [] c2Form "d0" = .error e)
    ∧ submitAndApply [c2Item] c2Item [] c2Form "d0" (fun _ => "t-new") = [c2Item] := by
  have h := claim_C2 c2Item [] c2Form "d0" rfl
  obtain ⟨e, he⟩ := h.1 [""] false rfl (by decide)
  exact ⟨⟨e, he⟩, h.2.1 e he [c2Item] (fun _ => "t-new")⟩

def c2xT (n : String) : Transaction :=
  { ttype := .purchase, quantity := 1, date := "d", serialNumber := n, id := "t" ++ n }

def c2xItem : Item :=
  { id := "item-2x", itype := .product, code := "C2X", name := "N2X",
    transactions := [c2xT "SN00001", c2xT "SN00002", c2xT "SN00003"] }

def c2xForm : SubmitForm :=
  { transactionType := .release, quantity := "", serialNumber := "SN00001~00002" }

/-- Counterexample for C2 as frozen: a release of the two already-used
serials SN00001–SN00002 (quantity 2, stock 3 — the quantity does *not*
exceed the stock) is still rejected, by the duplicate-serial check that
runs first; "otherwise the outbound is accepted" fails. -/
theorem claim_C2_counterexample :
    calculateStock c2xItem = 3
    ∧ expandTarget c2xItem c2xForm.serialNumber = .ok (["SN00001", "SN00002"], true)
    ∧ submitCount c2xForm ["SN00001", "SN00002"] true = 2
    ∧ submitTransaction c2xItem (allUsedSerials [c2xItem]) c2xForm "d0"
        = .error (.duplicateSerials ["SN00001", "SN00002"]) := by
  refine ⟨rfl, by rfl, rfl, by rfl⟩

/-! ## Inverting an accepted submission -/

theorem parseSerialRange_ok_ne_nil {input : String} {l : List String}
    (h : parseSerialRange input = .ok l) : l ≠ [] := by
  unfold parseSerialRange at h
  split at h
  · simp only [Except.ok.injEq] at h
    subst h
    simp
  · split at h
    · split at h
      · simp only [Except.ok.injEq] at h
        subst h
        simp
      · split at h
        · exact absurd h (by simp)
        · simp only [Except.ok.injEq] at h
          subst h
          simp [List.range_succ]
    · simp only [Except.ok.injEq] at h
      subst h
      simp

theorem expandTarget_ok_ne_nil {item : Item} {sn : String} {targets : List String}
    {isRange : Bool} (h : expandTarget item sn = .ok (targets, isRange)) : targets ≠ [] := by
  unfold expandTarget at h
  split at h
  · cases hp : parseSerialRange (jsToUpper sn) with
    | error e => rw [hp] at h; exact absurd h (by simp [Except.map])
    | ok ts =>
      rw [hp] at h
      simp only [Except.map, Except.ok.injEq, Prod.mk.injEq] at h
      obtain ⟨rfl, -⟩ := h
      exact parseSerialRange_ok_ne_nil hp
  · simp only [Except.ok.injEq, Prod.mk.injEq] at h
    obtain ⟨rfl, -⟩ := h
    simp

/-- What must have happened for `handleAddTransaction` to persist: the
expansion succeeded, no expanded serial collided, the count was positive,
a release fit inside the stock, and the persisted list is the range batch
(quantity 1 each) or the single parsed-quantity transaction. -/
theorem submitTransaction_ok_inv {item : Item} {registry : List String} {f : SubmitForm}
    {now : String} {ds : List TransactionData}
    (h : submitTransaction item registry f now = .ok ds) :
    ∃ targets isRange, expandTarget item f.serialNumber = .ok (targets, isRange)
      ∧ duplicatesOf registry targets = []
      ∧ 0 < submitCount f targets isRange
      ∧ (f.transactionType = .release → submitCount f targets isRange ≤ calculateStock item)
      ∧ ((isRange = true ∧ ds = targets.map (rangeTxn f now))
          ∨ (isRange = false ∧ ds = [singleTxn item f now (submitCount f targets isRange)])) := by
  unfold submitTransaction at h
  split at h
  · exact absurd h (by simp)
  · next targets isRange heq =>
    refine ⟨targets, isRange, heq, ?_⟩
    dsimp only at h
    split at h
    · exact absurd h (by simp)
    · next hdup =>
      rw [not_not] at hdup
      refine ⟨hdup, ?_⟩
      split at h
      · exact absurd h (by simp)
      · next hcnt =>
        refine ⟨by omega, ?_⟩
        split at h
        · exact absurd h (by simp)
        · next hstock =>
          refine ⟨?_, ?_⟩
          · intro hr
            by_contra hgt
            exact hstock ⟨hr, by omega⟩
          · split at h
            · next hr =>
              exact Or.inl ⟨hr, (Except.ok.inj h).symm⟩
            · next hr =>
              exact Or.inr ⟨by simpa using hr, (Except.ok.inj h).symm⟩

/-! ## C3: product submissions, expansion and collisions -/

/-- Claim C3, amended: a Product-type submission first expands its serial
input; if any expanded non-empty member is already in the global registry
the whole submission is rejected, zero transactions are persisted from it
and at most the first 5 colliding values are reported; a collision-free
range submission that passes the remaining validations persists one
ledger transaction per expanded serial, each carrying quantity 1 — but a
collision-free non-range submission persists a single transaction
carrying the parsed entered quantity (not quantity 1 per serial). -/
theorem claim_C3 (item : Item) (registry : List String) (f : SubmitForm) (now : String)
    (hprod : item.itype = .product) :
    (∀ targets isRange, expandTarget item f.serialNumber = .ok (targets, isRange) →
      duplicatesOf registry targets ≠ [] →
      submitTransaction item registry f now
        = .error (.duplicateSerials ((duplicatesOf registry targets).take 5))
      ∧ (∀ items idf, submitAndApply items item registry f now idf = items)
      ∧ ((duplicatesOf registry targets).take 5).length ≤ 5
      ∧ ∀ x ∈ (duplicatesOf registry targets).take 5,
          x ∈ targets ∧ x ≠ "" ∧ x ∈ registry)
    ∧ (∀ targets, expandTarget item f.serialNumber = .ok (targets, true) →
        duplicatesOf registry targets = [] →
        (f.transactionType = .release → (targets.length : Int) ≤ calculateStock item) →
        ∃ ds, submitTransaction item registry f now = .ok ds
          ∧ ds.map (fun d => d.serialNumber) = targets
          ∧ ∀ d ∈ ds, d.quantity = 1)
    ∧ (∀ targets, expandTarget item f.serialNumber = .ok (targets, false) →
        duplicatesOf registry targets = [] →
        0 < parseIntOr0 f.quantity →
        (f.transactionType = .release → parseIntOr0 f.quantity ≤ calculateStock item) →
        ∃ d, submitTransaction item registry f now = .ok [d]
          ∧ d.quantity = parseIntOr0 f.quantity
          ∧ d.serialNumber = jsToUpper f.serialNumber) := by
  refine ⟨?_, ?_, ?_⟩
  · intro targets isRange hexp hdup
    refine ⟨?_, ?_, ?_, ?_⟩
    · simp only [submitTransaction, hexp]
      rw [if_pos hdup]
    · intro items idf
      unfold submitAndApply
      rw [show submitTransaction item registry f now
          = .error (.duplicateSerials ((duplicatesOf registry targets).take 5)) by
        simp only [submitTransaction, hexp]
        rw [if_pos hdup]]
    · simp only [List.length_take]
      omega
    · intro x hx
      have hmem := List.mem_of_mem_take hx
      unfold duplicatesOf at hmem
      rw [List.mem_filter] at hmem
      refine ⟨hmem.1, ?_, ?_⟩
      · have := hmem.2
        simp only [Bool.and_eq_true, Bool.not_eq_true', beq_eq_false_iff_ne, ne_eq] at this
        exact this.1
      · have := hmem.2
        simp only [Bool.and_eq_true] at this
        simpa using this.2
  · intro targets hexp hdup hstk
    have hne := expandTarget_ok_ne_nil hexp
    refine ⟨targets.map (rangeTxn f now), ?_, ?_, ?_⟩
    · simp only [submitTransaction, hexp]
      rw [if_neg (by simp [hdup]), if_neg (by
          show ¬(submitCount f targets true ≤ 0)
          simp only [submitCount, if_pos]
          have : targets.length ≠ 0 := fun hc => hne (List.length_eq_zero.mp hc)
          omega),
        if_neg (by
          rintro ⟨hr, hgt⟩
          have := hstk hr
          simp only [submitCount, if_pos] at hgt
          omega),
        if_pos trivial]
    · simp only [List.map_map]
      exact List.map_congr_left (fun s _ => rfl) |>.trans (List.map_id _)
    · intro d hd
      simp only [List.mem_map] at hd
      obtain ⟨sv, -, rfl⟩ := hd
      rfl
  · intro targets hexp hdup hpos hstk
    refine ⟨singleTxn item f now (parseIntOr0 f.quantity), ?_, rfl, ?_⟩
    · simp only [submitTransaction, hexp]
      rw [if_neg (by simp [hdup]), if_neg (by
          show ¬(parseIntOr0 f.quantity ≤ 0)
          omega),
        if_neg (by
          rintro ⟨hr, hgt⟩
          have hgt2 : parseIntOr0 f.quantity > calculateStock item := hgt
          have := hstk hr
          omega)]
      rfl
    · simp [singleTxn, hprod]

def c3Item : Item :=
  { id := "item-3", itype := .product, code := "C3", name := "N3", transactions := [] }

def c3Form : SubmitForm :=
  { transactionType := .purchase, quantity := "3", serialNumber := "SN00009" }

/-- Witness for C3: submitting the serial SN00009 while the registry
already holds SN00009 is rejected with the collision reported. -/
theorem claim_C3_witness :
    submitTransaction c3Item ["SN00009"] c3Form "d0"
      = .error (.duplicateSerials ["SN00009"]) := by
  exact ((claim_C3 c3Item ["SN00009"] c3Form "d0" rfl).1 ["SN00009"] false (by rfl)
    (by decide)).1

def c3Txn : TransactionData :=
  { ttype := .purchase, quantity := 3, date := "d0", serialNumber := "SN00009" }

/-- Counterexample for C3 as frozen: a collision-free non-range Product
submission with entered quantity 3 persists ONE transaction carrying
quantity 3 — not "one ledger transaction per expanded serial, each
carrying quantity 1" (the expansion of `"SN00009"` has exactly one
member). -/
theorem claim_C3_counterexample :
    expandTarget c3Item c3Form.serialNumber = .ok (["SN00009"], false)
    ∧ submitTransaction c3Item [] c3Form "d0" = .ok [c3Txn]
    ∧ c3Txn.quantity = 3
    ∧ c3Txn.quantity ≠ 1 := by
  refine ⟨by rfl, by rfl, rfl, by decide⟩

/-! ## C6: the positive-quantity invariant -/

/-- Every persisted transaction of every item has a positive quantity. -/
def quantitiesPositiveB (items : List Item) : Bool :=
  items.all (fun i => i.transactions.all (fun t => 0 < t.quantity))

theorem withIds_data : ∀ (ds : List TransactionData) (idf : Nat → String),
    (withIds ds idf).map (fun t => t.toTransactionData) = ds := by
  intro ds
  induction ds with
  | nil => intro idf; rfl
  | cons d rest ih => intro idf; simp [withIds, ih]

/-- Folding the per-transaction append over a batch equals appending the
whole batch to every matching item. -/
theorem appendBatch_eq : ∀ (ts : List Transaction) (items : List Item) (targetId : String),
    ts.foldl (fun acc t => appAddTransaction acc targetId t) items
      = items.map (fun item => if item.id = targetId
          then { item with transactions := item.transactions ++ ts } else item) := by
  intro ts
  induction ts with
  | nil =>
    intro items targetId
    have hpt : ∀ item : Item, (if item.id = targetId
        then { item with transactions := item.transactions ++ ([] : List Transaction) }
        else item) = item := by
      intro item
      split
      · rw [List.append_nil]
      · rfl
    rw [List.foldl_nil, List.map_congr_left (fun a _ => hpt a)]
    simp
  | cons t ts ih =>
    intro items targetId
    rw [List.foldl_cons]
    show ts.foldl _ (appAddTransaction items targetId t) = _
    rw [ih, appAddTransaction, List.map_map]
    refine List.map_congr_left (fun item _ => ?_)
    by_cases hid : item.id = targetId
    · simp only [Function.comp_apply]
      rw [if_pos hid,
        if_pos (show ({ item with transactions := item.transactions ++ [t] } : Item).id
          = targetId from hid)]
      simp [List.append_assoc]
      rw [if_pos hid]
    · simp only [Function.comp_apply]
      rw [if_neg hid, if_neg hid, if_neg hid]

/-- Every transaction an accepted submission persists has a positive
quantity: range members carry 1, the single branch carries the positive
checked count. -/
theorem submit_ok_quantity_pos {item : Item} {registry : List String} {f : SubmitForm}
    {now : String} {ds : List TransactionData}
    (hok : submitTransaction item registry f now = .ok ds) :
    ∀ d ∈ ds, 0 < d.quantity := by
  obtain ⟨targets, isRange, -, -, hcnt, -, hcases⟩ := submitTransaction_ok_inv hok
  intro d hd
  rcases hcases with ⟨hr, rfl⟩ | ⟨hr, rfl⟩
  · rw [List.mem_map] at hd
    obtain ⟨sv, -, rfl⟩ := hd
    exact Int.zero_lt_one
  · simp only [List.mem_singleton] at hd
    subst hd
    subst hr
    exact hcnt

theorem withIds_quantity_pos {ds : List TransactionData} (idf : Nat → String)
    (h : ∀ d ∈ ds, 0 < d.quantity) : ∀ t ∈ withIds ds idf, 0 < t.quantity := by
  intro t ht
  have hmem : t.toTransactionData ∈ ds := by
    rw [← withIds_data ds idf]
    exact List.mem_map_of_mem _ ht
  exact h _ hmem

/-- Claim C6, amended: item creation and transaction submission persist
only transactions with quantity > 0 (creation seeds an Inbound only when
the initial quantity is positive; submission rejects non-positive counts
and range members carry quantity 1), and both preserve the all-positive
invariant over the collection.  (The transaction field edit does *not*
preserve it — see the counterexample.) -/
theorem claim_C6 :
    (∀ items itemData q itemId tId now, quantitiesPositiveB items = true →
        quantitiesPositiveB (handleAddItem items itemData q itemId tId now) = true)
    ∧ (∀ (item : Item) registry f (now : String) ds,
        submitTransaction item registry f now = .ok ds → ∀ d ∈ ds, 0 < d.quantity)
    ∧ (∀ items item registry f now idf, quantitiesPositiveB items = true →
        quantitiesPositiveB (submitAndApply items item registry f now idf) = true) := by
  refine ⟨?_, ?_, ?_⟩
  · intro items itemData q itemId tId now h
    simp only [handleAddItem, quantitiesPositiveB, List.all_cons, Bool.and_eq_true]
    refine ⟨?_, h⟩
    split
    · next hq => simp [hq]
    · simp
  · intro item registry f now ds hok
    exact submit_ok_quantity_pos hok
  · intro items item registry f now idf h
    unfold submitAndApply
    cases hs : submitTransaction item registry f now with
    | error e => exact h
    | ok ds =>
      dsimp only
      rw [appendBatch_eq]
      have hpos := withIds_quantity_pos idf (submit_ok_quantity_pos hs)
      simp only [quantitiesPositiveB, List.all_eq_true] at h ⊢
      intro i hi
      rw [List.mem_map] at hi
      obtain ⟨j, hj, rfl⟩ := hi
      by_cases hid : j.id = item.id
      · rw [if_pos hid]
        intro t ht
        rw [List.mem_append] at ht
        rcases ht with ht | ht
        · exact h j hj t ht
        · simpa using hpos t ht
      · rw [if_neg hid]
        exact h j hj

def c6Txn : Transaction := { ttype := .purchase, quantity := 5, date := "d", id := "t-1" }

def c6Item : Item :=
  { id := "item-6", itype := .part, code := "C6", name := "N6", transactions := [c6Txn] }

def c6State : ModalState :=
  { items := [c6Item], itemId := "item-6", password := "0000",
    showPasswordInput := some (.transSave "t-1"),
    transEditData := handleTransEditChange {} .quantity "0" }

def c6ItemData : ItemData := { itype := .part, code := "C6W", name := "N6W" }

/-- Witness for C6: creating an item with initial quantity 4 keeps every
persisted quantity positive. -/
theorem claim_C6_witness :
    quantitiesPositiveB (handleAddItem [] c6ItemData 4 "item-9" "t-9" "d0") = true :=
  claim_C6.1 [] c6ItemData 4 "item-9" "t-9" "d0" rfl

/-- Counterexample for C6 as frozen: editing a transaction's quantity
field to `"0"` (`parseInt("0", 10) || 0` = 0) and confirming with the
correct secret persists a transaction with quantity 0 — the transaction
field edit does not preserve the invariant. -/
theorem claim_C6_counterexample :
    quantitiesPositiveB c6State.items = true
    ∧ quantitiesPositiveB (handleActionConfirm Role.admin c6State).items = false := by
  refine ⟨rfl, by rfl⟩

/-! ## C7: the global serial-uniqueness invariant -/

/-- No two transactions system-wide carry the same non-empty serial
number, comparing serials uppercased. -/
def serialsUnique (items : List Item) : Prop := (collectSerials items).Nodup

theorem jsToUpper_idem (s : String) : jsToUpper (jsToUpper s) = jsToUpper s := by
  simp only [jsToUpper, List.map_map]
  exact congrArg String.mk (List.map_congr_left (fun c _ => upChar_upChar c))

theorem upChar_eq_of_isDigit {c : Char} (h : c.isDigit = true) : upChar c = c := by
  unfold upChar
  split <;> first | rfl | exact absurd h (by decide)

theorem jsToUpper_eq_self_of_fixed {x : String} (h : ∀ c ∈ x.data, upChar c = c) :
    jsToUpper x = x := by
  show String.mk (x.data.map upChar) = x
  rw [List.map_congr_left h]
  simp

theorem upChar_fixed_of_mem_upper {s : String} {c : Char} (h : c ∈ (jsToUpper s).data) :
    upChar c = c := by
  simp only [jsToUpper, List.mem_map] at h
  obtain ⟨c0, -, rfl⟩ := h
  exact upChar_upChar c0

theorem jsTrim_data_subset {s : String} {c : Char} (h : c ∈ (jsTrim s).data) : c ∈ s.data := by
  simp only [jsTrim, List.mem_reverse] at h
  have h2 := (List.dropWhile_sublist _).mem h
  rw [List.mem_reverse] at h2
  exact (List.dropWhile_sublist _).mem h2

theorem matchRangeAux_g1_subset : ∀ {rest g1 p ds es : List Char},
    matchRangeAux g1 rest = some (p, ds, es) → ∀ c ∈ p, c ∈ g1 ∨ c ∈ rest := by
  intro rest
  induction rest with
  | nil =>
    intro g1 p ds es h c hc
    rw [matchRangeAux] at h
    split at h
    · next heq =>
      simp only [Option.some.injEq, Prod.mk.injEq] at h
      obtain ⟨hp, -, -⟩ := h
      subst hp
      exact Or.inl (by simpa using hc)
    · exact absurd h (by simp)
  | cons c0 rest2 ih =>
    intro g1 p ds es h c hc
    rw [matchRangeAux] at h
    split at h
    · next heq =>
      simp only [Option.some.injEq, Prod.mk.injEq] at h
      obtain ⟨hp, -, -⟩ := h
      subst hp
      exact Or.inl (by simpa using hc)
    · split at h
      · rcases ih h c hc with hg | hr
        · rcases List.mem_cons.mp hg with rfl | hg2
          · exact Or.inr (List.mem_cons_self _ _)
          · exact Or.inl hg2
        · exact Or.inr (List.mem_cons_of_mem _ hr)
      · exact absurd h (by simp)

theorem matchRange_g1_subset {l p ds es : List Char}
    (h : matchRange l = some (p, ds, es)) : ∀ c ∈ p, c ∈ l := by
  match l with
  | [] => simp [matchRange] at h
  | c0 :: rest =>
    simp only [matchRange] at h
    split at h
    · intro c hc
      rcases matchRangeAux_g1_subset h c hc with hg | hr
      · simp only [List.mem_singleton] at hg
        subst hg
        exact List.mem_cons_self _ _
      · exact List.mem_cons_of_mem _ hr
    · exact absurd h (by simp)

/-- Every serial `parseSerialRange` produces from an already-uppercased
input is itself a fixed point of uppercasing: the kept prefix consists of
characters of the input (images of `upChar`), the numerals of digits. -/
theorem parseSerialRange_output_fixed {s0 : String} {targets : List String}
    (h : parseSerialRange (jsToUpper s0) = .ok targets) :
    ∀ x ∈ targets, jsToUpper x = x := by
  have htrim : ∀ c ∈ (jsTrim (jsToUpper s0)).data, upChar c = c :=
    fun c hc => upChar_fixed_of_mem_upper (jsTrim_data_subset hc)
  unfold parseSerialRange at h
  split at h
  · simp only [Except.ok.injEq] at h
    subst h
    intro x hx
    rw [List.mem_singleton] at hx
    subst hx
    exact jsToUpper_eq_self_of_fixed htrim
  · next p ds es heq =>
    split at h
    · split at h
      · simp only [Except.ok.injEq] at h
        subst h
        intro x hx
        rw [List.mem_singleton] at hx
        subst hx
        exact jsToUpper_eq_self_of_fixed htrim
      · split at h
        · exact absurd h (by simp)
        · simp only [Except.ok.injEq] at h
          subst h
          intro x hx
          rw [List.mem_map] at hx
          obtain ⟨j, -, rfl⟩ := hx
          refine jsToUpper_eq_self_of_fixed ?_
          intro c hc
          rw [mk_append] at hc
          rw [show (String.mk (p ++ (padZeros (natToDecimal _) ds.length).data)).data
              = p ++ (padZeros (natToDecimal _) ds.length).data from rfl] at hc
          rcases List.mem_append.mp hc with hcp | hcd
          · exact upChar_fixed_of_mem_upper (matchRange_g1_subset heq c hcp)
          · simp only [padZeros, natToDecimal, List.mem_append, List.mem_replicate] at hcd
            rcases hcd with ⟨-, rfl⟩ | hcd
            · rfl
            · exact upChar_eq_of_isDigit
                (by simpa using (List.all_eq_true.mp (natToDigits_all_digit _)) c hcd)
    · simp only [Except.ok.injEq] at h
      subst h
      intro x hx
      rw [List.mem_singleton] at hx
      subst hx
      exact jsToUpper_eq_self_of_fixed htrim

theorem data_append (a b : String) : (a ++ b).data = a.data ++ b.data := rfl

/-- The serials of an expanded range are pairwise distinct: same prefix,
same pad width, distinct numerals. -/
theorem parseSerialRange_ok_nodup {input : String} {l : List String}
    (h : parseSerialRange input = .ok l) : l.Nodup := by
  unfold parseSerialRange at h
  split at h
  · simp only [Except.ok.injEq] at h
    subst h
    simp
  · next p ds es heq =>
    split at h
    · split at h
      · simp only [Except.ok.injEq] at h
        subst h
        simp
      · split at h
        · exact absurd h (by simp)
        · simp only [Except.ok.injEq] at h
          subst h
          refine List.Nodup.map_on ?_ (List.nodup_range _)
          intro j1 h1 j2 h2 heqs
          have hdd := congrArg String.data heqs
          rw [data_append, data_append] at hdd
          have hpad := List.append_cancel_left hdd
          have hv := congrArg digitsToNat hpad
          rw [digitsToNat_padZeros, digitsToNat_padZeros] at hv
          omega
    · simp only [Except.ok.injEq] at h
      subst h
      simp

theorem txnSerials_withIds : ∀ (ds : List TransactionData) (idf : Nat → String),
    txnSerials (withIds ds idf)
      = ds.filterMap (fun d =>
          if d.serialNumber ≠ "" then some (jsToUpper d.serialNumber) else none) := by
  intro ds
  induction ds with
  | nil => intro idf; rfl
  | cons d rest ih =>
    intro idf
    simp only [withIds, txnSerials, List.filterMap_cons] at ih ⊢
    rw [ih]

/-- `filterMap` with the registry guard keeps distinct fixed-point
serials distinct. -/
theorem nodup_filterMap_guard : ∀ {l : List String}, (∀ x ∈ l, jsToUpper x = x) →
    l.Nodup →
    (l.filterMap (fun s => if s ≠ "" then some (jsToUpper s) else none)).Nodup := by
  intro l
  induction l with
  | nil => intro _ _; simp
  | cons x t ih =>
    intro hf hnd
    rw [List.nodup_cons] at hnd
    have hfx := hf x (List.mem_cons_self _ _)
    rw [List.filterMap_cons]
    split
    · exact ih (fun y hy => hf y (List.mem_cons_of_mem _ hy)) hnd.2
    · next b heq =>
      have hbx : b = x := by
        split at heq
        · exact (Option.some.inj heq).symm.trans hfx
        · exact absurd heq (by simp)
      rw [List.nodup_cons]
      refine ⟨?_, ih (fun y hy => hf y (List.mem_cons_of_mem _ hy)) hnd.2⟩
      intro hmem
      rw [List.mem_filterMap] at hmem
      obtain ⟨y, hyt, hy⟩ := hmem
      have hby : b = y := by
        split at hy
        · exact (Option.some.inj hy).symm.trans (hf y (List.mem_cons_of_mem _ hyt))
        · exact absurd hy (by simp)
      have hxy : x = y := hbx.symm.trans hby
      exact hnd.1 (by rw [hxy]; exact hyt)

theorem map_nonmatching_eq {items : List Item} {targetId : String} {ts : List Transaction}
    (h : ∀ j ∈ items, ¬(j.id = targetId)) :
    items.map (fun item => if item.id = targetId
      then { item with transactions := item.transactions ++ ts } else item) = items := by
  rw [List.map_congr_left (fun j hj => if_neg (h j hj))]
  simp

theorem itemSerials_append (item : Item) (ts : List Transaction) :
    itemSerials { item with transactions := item.transactions ++ ts }
      = itemSerials item ++ txnSerials ts := by
  simp [itemSerials, txnSerials, List.filterMap_append]

theorem flatMap_map_subset {items : List Item} {targetId : String} {ts : List Transaction}
    {x : String}
    (hx : x ∈ (items.map (fun item => if item.id = targetId
        then { item with transactions := item.transactions ++ ts } else item)).flatMap
      itemSerials) :
    x ∈ items.flatMap itemSerials ++ txnSerials ts := by
  rw [List.mem_flatMap] at hx
  obtain ⟨i2, hi2, hxi⟩ := hx
  rw [List.mem_map] at hi2
  obtain ⟨j, hj, rfl⟩ := hi2
  rw [List.mem_append, List.mem_flatMap]
  by_cases hid : j.id = targetId
  · rw [if_pos hid, itemSerials_append, List.mem_append] at hxi
    rcases hxi with hxi | hxi
    · exact Or.inl ⟨j, hj, hxi⟩
    · exact Or.inr hxi
  · rw [if_neg hid] at hxi
    exact Or.inl ⟨j, hj, hxi⟩

/-- Appending a batch of transactions (whose serials collide neither with
the existing registry nor with each other) to a uniquely-identified item
keeps the registry duplicate-free. -/
theorem nodup_append_batch (targetId : String) (ts : List Transaction) :
    ∀ (items : List Item),
      (items.filter (fun i => i.id == targetId)).length ≤ 1 →
      ((items.flatMap itemSerials) ++ txnSerials ts).Nodup →
      ((items.map (fun item => if item.id = targetId
          then { item with transactions := item.transactions ++ ts } else item)).flatMap
        itemSerials).Nodup := by
  intro items
  induction items with
  | nil =>
    intro _ hnd
    simp only [List.map_nil, List.flatMap_nil]
    exact List.nodup_nil
  | cons i rest ih =>
    intro hcount hnd
    simp only [List.map_cons, List.flatMap_cons]
    by_cases hid : i.id = targetId
    · have hrest : ∀ j ∈ rest, ¬(j.id = targetId) := by
        intro j hj hj2
        have h1 : (List.filter (fun i => i.id == targetId) (i :: rest)).length
            = (List.filter (fun i => i.id == targetId) rest).length + 1 := by
          simp [List.filter_cons, hid]
        have h2 : (List.filter (fun i => i.id == targetId) rest) ≠ [] := by
          intro hnil
          have : j ∈ List.filter (fun i => i.id == targetId) rest :=
            List.mem_filter.mpr ⟨hj, by simp [hj2]⟩
          rw [hnil] at this
          exact absurd this (by simp)
        have h3 : 0 < (List.filter (fun i => i.id == targetId) rest).length :=
          List.length_pos.mpr h2
        rw [h1] at hcount
        omega
      rw [if_pos hid, map_nonmatching_eq hrest, itemSerials_append]
      have hperm : ((itemSerials i ++ rest.flatMap itemSerials) ++ txnSerials ts).Perm
          ((itemSerials i ++ txnSerials ts) ++ rest.flatMap itemSerials) := by
        rw [List.append_assoc, List.append_assoc]
        exact List.Perm.append_left _ List.perm_append_comm
      have hnd2 := hperm.nodup (by
        simpa only [List.flatMap_cons, List.append_assoc] using hnd)
      simpa only [List.append_assoc] using hnd2
    · rw [if_neg hid]
      have hcount2 : (rest.filter (fun i => i.id == targetId)).length ≤ 1 := by
        have : (List.filter (fun i => i.id == targetId) (i :: rest))
            = List.filter (fun i => i.id == targetId) rest := by
          simp [List.filter_cons, hid]
        rw [this] at hcount
        exact hcount
      simp only [List.flatMap_cons, List.append_assoc] at hnd
      rw [List.nodup_append] at hnd ⊢
      obtain ⟨ha, hbc, hdisj⟩ := hnd
      refine ⟨ha, ih hcount2 hbc, ?_⟩
      intro x hx hx2
      exact hdisj hx (flatMap_map_subset hx2)

theorem expandTarget_true_inv {item : Item} {sn : String} {targets : List String}
    (h : expandTarget item sn = .ok (targets, true)) :
    parseSerialRange (jsToUpper sn) = .ok targets := by
  unfold expandTarget at h
  split at h
  · cases hps : parseSerialRange (jsToUpper sn) with
    | error e => rw [hps] at h; exact absurd h (by simp [Except.map])
    | ok ts =>
      rw [hps] at h
      simp only [Except.map, Except.ok.injEq, Prod.mk.injEq] at h
      rw [h.1]
  · simp only [Except.ok.injEq, Prod.mk.injEq] at h
    exact absurd h.2 (by simp)

theorem expandTarget_false_inv {item : Item} {sn : String} {targets : List String}
    (h : expandTarget item sn = .ok (targets, false)) :
    targets = [jsTrim (jsToUpper sn)] := by
  unfold expandTarget at h
  split at h
  · cases hps : parseSerialRange (jsToUpper sn) with
    | error e => rw [hps] at h; exact absurd h (by simp [Except.map])
    | ok ts =>
      rw [hps] at h
      simp only [Except.map, Except.ok.injEq, Prod.mk.injEq] at h
      exact absurd h.2 (by simp)
  · simp only [Except.ok.injEq, Prod.mk.injEq] at h
    exact h.1.symm

theorem nodup_filterMap_singleton {α β : Type} (g : α → Option β) (a : α) :
    (List.filterMap g [a]).Nodup := by
  rw [List.filterMap_cons]
  cases g a <;> simp

theorem duplicatesOf_nil_not_mem {registry targets : List String} {s : String}
    (hd : duplicatesOf registry targets = []) (hs : s ∈ targets) (hne : s ≠ "") :
    s ∉ registry := by
  intro hmem
  have hnp := List.filter_eq_nil_iff.mp hd s hs
  apply hnp
  simp [hne, hmem]

/-- Claim C7, amended: the global serial-uniqueness invariant is
preserved by transaction creation — a submission accepted against the
registry derived from the current collection keeps all non-empty
(uppercased) serials pairwise distinct, provided item ids are unique (at
most one item matches) and the submitted serial carries no surrounding
whitespace (the duplicate check tests the trimmed serial but the
non-range branch stores the untrimmed one).  The transaction field edit
does *not* preserve the invariant — see the counterexample. -/
theorem claim_C7 (items : List Item) (item : Item) (f : SubmitForm) (now : String)
    (idf : Nat → String)
    (huniq : serialsUnique items)
    (hids : (items.filter (fun i => i.id == item.id)).length ≤ 1)
    (htrim : jsTrim (jsToUpper f.serialNumber) = jsToUpper f.serialNumber)
    (ds : List TransactionData)
    (hok : submitTransaction item (allUsedSerials items) f now = .ok ds) :
    serialsUnique (submitAndApply items item (allUsedSerials items) f now idf) := by
  obtain ⟨targets, isRange, hexp, hdups, -, -, hcases⟩ := submitTransaction_ok_inv hok
  unfold submitAndApply
  rw [hok]
  dsimp only
  rw [appendBatch_eq]
  show ((items.map _).flatMap itemSerials).Nodup
  apply nodup_append_batch item.id (withIds ds idf) items hids
  rw [List.nodup_append]
  have hnotmem : ∀ a, a ∈ txnSerials (withIds ds idf) → a ∉ collectSerials items := by
    rw [txnSerials_withIds]
    intro a ha
    rw [List.mem_filterMap] at ha
    obtain ⟨d, hd, hguard⟩ := ha
    rcases hcases with ⟨rfl, rfl⟩ | ⟨rfl, rfl⟩
    · -- range: stored serial is the expanded member itself
      rw [List.mem_map] at hd
      obtain ⟨sv, hsv, rfl⟩ := hd
      have hp := expandTarget_true_inv hexp
      have hfix := parseSerialRange_output_fixed hp sv hsv
      have hsv_ne : sv ≠ "" := by
        intro hnil
        rw [show (rangeTxn f now sv).serialNumber = sv from rfl, hnil] at hguard
        simp at hguard
      rw [show (rangeTxn f now sv).serialNumber = sv from rfl] at hguard
      rw [if_pos hsv_ne] at hguard
      obtain rfl := Option.some.inj hguard
      rw [hfix]
      intro hmem
      exact duplicatesOf_nil_not_mem hdups hsv hsv_ne (List.mem_dedup.mpr hmem)
    · -- single: stored serial is the untrimmed uppercased input
      simp only [List.mem_singleton] at hd
      subst hd
      by_cases hprod : item.itype = .product
      · have hsv : (singleTxn item f now (submitCount f targets false)).serialNumber
            = jsToUpper f.serialNumber := by
          simp [singleTxn, hprod]
        rw [hsv] at hguard
        by_cases hne : jsToUpper f.serialNumber = ""
        · rw [hne] at hguard
          simp at hguard
        · rw [if_pos hne] at hguard
          obtain rfl := Option.some.inj hguard
          rw [jsToUpper_idem]
          have htgt := expandTarget_false_inv hexp
          intro hmem
          refine duplicatesOf_nil_not_mem hdups ?_ ?_ (List.mem_dedup.mpr hmem)
          · rw [htgt, htrim]
            exact List.mem_singleton.mpr rfl
          · exact hne
      · have hsv : (singleTxn item f now (submitCount f targets false)).serialNumber = "" := by
          simp [singleTxn, hprod]
        rw [hsv] at hguard
        simp at hguard
  refine ⟨huniq, ?_, fun a ha hb => hnotmem a hb ha⟩
  -- the new serials are pairwise distinct
  rw [txnSerials_withIds]
  rcases hcases with ⟨rfl, rfl⟩ | ⟨rfl, rfl⟩
  · rw [List.filterMap_map]
    have hp := expandTarget_true_inv hexp
    have hguard_eq : ∀ s ∈ targets,
        ((fun d : TransactionData =>
            if d.serialNumber ≠ "" then some (jsToUpper d.serialNumber) else none)
          ∘ rangeTxn f now) s
        = (fun s => if s ≠ "" then some (jsToUpper s) else none) s := fun s _ => rfl
    rw [List.filterMap_congr hguard_eq]
    exact nodup_filterMap_guard (parseSerialRange_output_fixed hp)
      (parseSerialRange_ok_nodup hp)
  · exact nodup_filterMap_singleton _ _

def c7wTxn : Transaction :=
  { ttype := .purchase
    quantity := 1
    date := "d0"
    serialNumber := "SN00001"
    id := "t-1" }

def c7wItem : Item :=
  { id := "item-7w"
    itype := .product
    code := "C7W"
    name := "N7W"
    transactions := [c7wTxn] }

def c7wForm : SubmitForm :=
  { transactionType := .purchase
    quantity := "1"
    serialNumber := "SN00002" }

def c7ds : List TransactionData := [singleTxn c7wItem c7wForm "d1" 1]

/-- Witness for C7: submitting a fresh serial `SN00002` against an item
already holding `SN00001` keeps the registry duplicate-free. -/
theorem claim_C7_witness :
    serialsUnique (submitAndApply [c7wItem] c7wItem (allUsedSerials [c7wItem]) c7wForm "d1"
      (fun _ => "t-new")) :=
  claim_C7 [c7wItem] c7wItem c7wForm "d1" (fun _ => "t-new")
    (show (collectSerials [c7wItem]).Nodup by decide) (by decide) rfl c7ds rfl

def c7xT1 : Transaction :=
  { ttype := .purchase
    quantity := 1
    date := "d"
    serialNumber := "SN00001"
    id := "t-1" }

def c7xT2 : Transaction :=
  { ttype := .purchase
    quantity := 1
    date := "d"
    serialNumber := "SN00002"
    id := "t-2" }

def c7xItem : Item :=
  { id := "item-7"
    itype := .product
    code := "C7"
    name := "N7"
    transactions := [c7xT1, c7xT2] }

def c7xState : ModalState :=
  { items := [c7xItem]
    itemId := "item-7"
    password := "0000"
    showPasswordInput := some (.transSave "t-2")
    transEditData := handleTransEditChange {} .serialNumber "sn00001" }

/-- Counterexample for C7 as stated: the transaction *edit* path performs
no duplicate check, so committing an edit that renames `SN00002` to
`sn00001` (uppercased on entry) breaks the global uniqueness invariant. -/
theorem claim_C7_counterexample :
    serialsUnique c7xState.items ∧
      ¬ serialsUnique ((handleActionConfirm Role.admin c7xState).items) := by
  constructor
  · show (collectSerials c7xState.items).Nodup
    decide
  · show ¬ (collectSerials (handleActionConfirm Role.admin c7xState).items).Nodup
    decide

end Inventory
